import Mathlib

/-!
# CSB benchmark harness: a shallow embedding of `src/bench/benchmark.c`

The C globals (`g_params`, `g_ops`, `g_stop`, the generator state) are threaded
through an explicit `state`.  Machine words (`size_t`, `uint64_t`) are natural
numbers reduced modulo `SIZE_MOD = 2^64` wherever the C arithmetic can wrap.
Unbounded loops (`while (true)`, `while (!stop())`) take a fuel argument; running
out of fuel is reported as a separate outcome and never as a result.
-/

namespace CSB

/-! ## Constants and data model -/

/-- The C macro `DISTRIBUTION_BOUND` (benchmark.c line 29). -/
def DISTRIBUTION_BOUND : Nat := 1024

/-- The C constant `UINT32_MAX`, used by `bm_phase_warmup` as the unfilled-slot sentinel. -/
def UINT32_MAX : Nat := 4294967295

/-- Number of values of a 64-bit machine word (`size_t`, `uint64_t`). -/
def SIZE_MOD : Nat := 2 ^ 64

/-- Modelled from the spec: `bm_params_t` is declared in `CSB/bm_params.h`, which is not
among the sources.  Only the fields read by `benchmark.c` are kept; `op_dist_len` is the
length of the weight vector `op_dist`. -/
structure bm_params_t where
  num_threads : Nat
  duration_s : Nat
  max_noise : Nat
  op_dist : List Nat
deriving DecidableEq, Repr

/-- The field `g_params.op_dist_len`. -/
def bm_params_t.op_dist_len (p : bm_params_t) : Nat := p.op_dist.length

/-- Modelled from the spec: the random source (`random_init_seed`, `random_next_int`) lives
in a header that is not among the sources.  Spec 4.2: a deterministic generator exposing
`seed(u64)` and `next_int(lo, hi)`; `σ` is its internal state. -/
structure random_t (σ : Type) where
  random_init_seed : Nat → σ
  random_next_int : σ → Nat → Nat → Nat × σ

/-- The array `size_t g_ops[DISTRIBUTION_BOUND]` (benchmark.c line 47). -/
structure ops_table where
  slots : List Nat
  size_eq : slots.length = DISTRIBUTION_BOUND

/-- The read `g_ops[pos]`. -/
def ops_table.read (t : ops_table) (pos : Nat) : Nat := t.slots.getD pos 0

/-- The store `g_ops[pos] = v`. -/
def ops_table.write (t : ops_table) (pos v : Nat) : ops_table :=
  ⟨t.slots.set pos v, by rw [List.length_set]; exact t.size_eq⟩

/-- Observable steps of the driver thread, recorded in program order. -/
inductive event where
  | seed (s : Nat)
  | ops_write (pos val : Nat)
  | thread_create (tid : Nat)
  | barrier_start
  | store_stop (v : Bool)
  | barrier_stop
  | thread_join (tid : Nat)
  | stat_add_spent_time (min_clk max_clk min_ms max_ms : Nat)
deriving DecidableEq, Repr

/-- The process-wide state touched by the phase driver. -/
structure state (σ : Type) where
  g_params : bm_params_t
  g_ops : ops_table
  g_stop : Bool
  rng : σ
  tsc_reads : Nat
  trace : List event

/-- Result of running a piece of the driver. -/
inductive outcome (σ : Type) where
  | ok (st : state σ)
  | assert_failed (line : Nat) (st : state σ)
  | out_of_bounds (st : state σ)
  | out_of_fuel

/-- Sequencing: continue only after a normal return. -/
def outcome.andThen {σ : Type} (o : outcome σ) (k : state σ → outcome σ) : outcome σ :=
  match o with
  | .ok st => k st
  | .assert_failed l st => .assert_failed l st
  | .out_of_bounds st => .out_of_bounds st
  | .out_of_fuel => .out_of_fuel

/-- The store `g_ops[pos] = v` on the global state, logged in the trace. -/
def state.set_op {σ : Type} (st : state σ) (pos v : Nat) : state σ :=
  { st with g_ops := st.g_ops.write pos v, trace := st.trace ++ [event.ops_write pos v] }

/-! ## `bm_phase_warmup` (benchmark.c lines 158-200) -/

/-- Lines 166-169: `total += g_params.op_dist[i]` in `size_t` arithmetic. -/
def weights_total (w : List Nat) : Nat :=
  w.foldl (fun total x => (total + x) % SIZE_MOD) 0

/-- Lines 172-174: `for (i = 0; i < DISTRIBUTION_BOUND; i++) g_ops[i] = UINT32_MAX;`
with `n` iterations left and loop variable `i`. -/
def clear_ops {σ : Type} : Nat → Nat → state σ → state σ
  | 0, _, st => st
  | n + 1, i, st => clear_ops n (i + 1) (st.set_op i UINT32_MAX)

/-- Lines 180-186: the `while (true)` rejection-sampling loop placing operation `i`.
Each iteration draws `pos = random_next_int(0, DISTRIBUTION_BOUND - 1)`; an index outside
the array is undefined behaviour in C and reported as `out_of_bounds`. -/
def find_slot {σ : Type} (R : random_t σ) (i : Nat) : Nat → state σ → outcome σ
  | 0, _ => .out_of_fuel
  | fuel + 1, st =>
    let r := R.random_next_int st.rng 0 (DISTRIBUTION_BOUND - 1)
    let st1 := { st with rng := r.2 }
    if r.1 < DISTRIBUTION_BOUND then
      if st1.g_ops.read r.1 = UINT32_MAX then .ok (st1.set_op r.1 i)
      else find_slot R i fuel st1
    else .out_of_bounds st1

/-- Lines 178-188: `for (j = 0; j < g_params.op_dist[i]; j++)`, with `n` iterations left. -/
def fill_op {σ : Type} (R : random_t σ) (fuel i : Nat) : Nat → state σ → outcome σ
  | 0, st => .ok st
  | n + 1, st => (find_slot R i fuel st).andThen (fill_op R fuel i n)

/-- Lines 177-189: `for (i = 0; i < g_params.op_dist_len; i++)`, with the weights still to
be processed and the loop variable `i`. -/
def fill_ops {σ : Type} (R : random_t σ) (fuel : Nat) : Nat → List Nat → state σ → outcome σ
  | _, [], st => .ok st
  | i, w :: ws, st => (fill_op R fuel i w st).andThen (fill_ops R fuel (i + 1) ws)

/-- Lines 192-194: `assert(g_ops[i] < g_params.op_dist_len)` for every slot. -/
def check_ops {σ : Type} (st : state σ) : outcome σ :=
  if st.g_ops.slots.all (fun v => decide (v < st.g_params.op_dist_len)) then .ok st
  else .assert_failed 193 st

/-- The distribution part of `bm_phase_warmup` (lines 162-194): seed the generator with 0,
check the weight sum, clear the table, fill it, check every slot.  `bm_stat_init`,
`bm_target_init` and the environment parsing after line 194 do not touch `g_ops`. -/
def bm_phase_warmup {σ : Type} (R : random_t σ) (fuel : Nat) (st : state σ) : outcome σ :=
  let st1 := { st with rng := R.random_init_seed 0, trace := st.trace ++ [event.seed 0] }
  if weights_total st1.g_params.op_dist = DISTRIBUTION_BOUND then
    (fill_ops R fuel 0 st1.g_params.op_dist
      (clear_ops DISTRIBUTION_BOUND 0 st1)).andThen check_ops
  else .assert_failed 170 st1

/-- The table left in `g_ops` by a warmup that returned normally. -/
def outcome.table {σ : Type} : outcome σ → Option (List Nat)
  | .ok st => some st.g_ops.slots
  | _ => none

/-! ## A concrete generator used to exercise the model -/

/-- A generator whose state is a counter: the `n`-th draw is `lo + n % (hi - lo + 1)`. -/
def counter_rng : random_t Nat where
  random_init_seed := fun s => s
  random_next_int := fun n lo hi => (lo + n % (hi - lo + 1), n + 1)

/-- Globals at program start: static storage is zero-initialised, `g_stop = false`. -/
def initial_state {σ : Type} (p : bm_params_t) (s : σ) : state σ where
  g_params := p
  g_ops := ⟨List.replicate DISTRIBUTION_BOUND 0, by simp⟩
  g_stop := false
  rng := s
  tsc_reads := 0
  trace := []

/-- The multiset implied by a weight vector: `w[0]` copies of `i`, then `w[1]` copies of
`i + 1`, and so on. -/
def expand : Nat → List Nat → List Nat
  | _, [] => []
  | i, w :: ws => List.replicate w i ++ expand (i + 1) ws

/-- Partial-correctness assertion on an outcome: a normal return satisfies `Q`, and the
run neither failed an assertion nor indexed outside the table. -/
def outcome.post {σ : Type} (o : outcome σ) (Q : state σ → Prop) : Prop :=
  match o with
  | .ok st => Q st
  | .out_of_fuel => True
  | .assert_failed _ _ => False
  | .out_of_bounds _ => False

/-- Every draw for a table slot is a valid index, as `random_next_int(0, 1023)` promises. -/
def draws_in_range {σ : Type} (R : random_t σ) : Prop :=
  ∀ s, (R.random_next_int s 0 (DISTRIBUTION_BOUND - 1)).1 < DISTRIBUTION_BOUND

/-- Effect of placing `n` copies of operation `i` on the slot counts, between two states. -/
def placed {σ : Type} (st st1 : state σ) (added : List Nat) : Prop :=
  st1.g_params = st.g_params ∧ st1.g_stop = st.g_stop ∧
  st1.g_ops.slots.count UINT32_MAX + added.length = st.g_ops.slots.count UINT32_MAX ∧
  ∀ v, v ≠ UINT32_MAX → st1.g_ops.slots.count v = st.g_ops.slots.count v + added.count v

/-- What a normally returning warmup leaves in `g_ops`, for weights summing to 1024 and
fewer than `UINT32_MAX + 1` operations. -/
def table_matches {σ : Type} (st st1 : state σ) : Prop :=
  st1.g_params = st.g_params ∧ st1.g_stop = st.g_stop ∧
  st1.g_ops.slots.count UINT32_MAX = 0 ∧
  ∀ v, v ≠ UINT32_MAX → st1.g_ops.slots.count v = (expand 0 st.g_params.op_dist).count v

/-- Loop invariant of the fill under `counter_rng`: the generator has produced as many
draws as slots are filled, and the filled slots form a prefix of the table. -/
def counter_inv (st : state Nat) (pre : List Nat) (k : Nat) : Prop :=
  st.rng = pre.length ∧ st.g_ops.slots = pre ++ List.replicate k UINT32_MAX ∧
  pre.length + k = DISTRIBUTION_BOUND

/-- Parameters of scenario D of the spec: two operations with weights 1023 and 1. -/
def params_D : bm_params_t := ⟨2, 1, 0, [1023, 1]⟩

/-! ## The worker's view of the table -/

/-- The operation ids read by `op = g_ops[i % DISTRIBUTION_BOUND]` (benchmark.c line 102)
in 1024 consecutive iterations of the worker loop, the first one with cursor `i = c`. -/
def window (D : List Nat) (c : Nat) : List Nat :=
  (List.range DISTRIBUTION_BOUND).map (fun k => D.getD ((c + k) % DISTRIBUTION_BOUND) 0)

/-! ## `bm_phase_run` and `main` (benchmark.c lines 55-70, 202-265) -/

/-- Modelled from the spec: the time source (`read_time_stamp_counter`, `record_time`,
`calc_spent_time`) is declared in `CSB/time.h`, which is not among the sources.  `tsc n` and
`wall n` are the values returned by the `n`-th sample taken by the driver thread. -/
structure clock_t where
  tsc : Nat → Nat
  wall : Nat → Nat
  calc_spent_time : Nat → Nat → Nat

/-- The call `read_time_stamp_counter()`: a `uint64_t` value, and one more read done. -/
def read_time_stamp_counter {σ : Type} (C : clock_t) (st : state σ) : Nat × state σ :=
  (C.tsc st.tsc_reads % SIZE_MOD, { st with tsc_reads := st.tsc_reads + 1 })

/-- Subtraction of two `uint64_t` values as C computes it. -/
def sub_u64 (a b : Nat) : Nat := (a + SIZE_MOD - b) % SIZE_MOD

/-- Append one event to the driver trace. -/
def state.log {σ : Type} (st : state σ) (e : event) : state σ :=
  { st with trace := st.trace ++ [e] }

/-- Lines 222-224: `for (i = 0; i < g_params.num_threads; i++) pthread_create(.., run, i)`,
with `n` iterations left and loop variable `i`. -/
def spawn_threads {σ : Type} : Nat → Nat → state σ → state σ
  | 0, _, st => st
  | n + 1, i, st => spawn_threads n (i + 1) (st.log (event.thread_create i))

/-- Lines 247-249: `for (i = 0; i < g_params.num_threads; i++) pthread_join(threads[i])`. -/
def join_threads {σ : Type} : Nat → Nat → state σ → state σ
  | 0, _, st => st
  | n + 1, i, st => join_threads n (i + 1) (st.log (event.thread_join i))

/-- The four cycle samples and the two durations computed by `bm_phase_run`. -/
structure envelope where
  duration_max_start_clk : Nat
  duration_min_start_clk : Nat
  duration_min_stop_clk : Nat
  duration_max_stop_clk : Nat
  duration_min_clk : Nat
  duration_max_clk : Nat
deriving DecidableEq, Repr

/-- The driver side of `bm_phase_run`, statement by statement. -/
def bm_phase_run {σ : Type} (C : clock_t) (st : state σ) : envelope × state σ :=
  let st1 := spawn_threads st.g_params.num_threads 0 st
  let r1 := read_time_stamp_counter C st1
  let max_start_ms := C.wall st1.tsc_reads
  let st2 := r1.2.log event.barrier_start
  let r2 := read_time_stamp_counter C st2
  let min_start_ms := C.wall st2.tsc_reads
  let st3 := ({ r2.2 with g_stop := true } : state σ).log (event.store_stop true)
  let r3 := read_time_stamp_counter C st3
  let min_stop_ms := C.wall st3.tsc_reads
  let st4 := r3.2.log event.barrier_stop
  let r4 := read_time_stamp_counter C st4
  let max_stop_ms := C.wall st4.tsc_reads
  let st5 := join_threads st.g_params.num_threads 0 r4.2
  let duration_min_clk := sub_u64 r3.1 r2.1
  let duration_max_clk := sub_u64 r4.1 r1.1
  let duration_min_ms := C.calc_spent_time min_start_ms min_stop_ms
  let duration_max_ms := C.calc_spent_time max_start_ms max_stop_ms
  (⟨r1.1, r2.1, r3.1, r4.1, duration_min_clk, duration_max_clk⟩,
    st5.log (event.stat_add_spent_time duration_min_clk duration_max_clk
      duration_min_ms duration_max_ms))

/-- Lines 65-66 of `main`: `bm_phase_warmup(); bm_phase_run();`.  A failed assertion aborts
the process, so the run phase is entered only after a normal return of warmup. -/
def main {σ : Type} (R : random_t σ) (C : clock_t) (fuel : Nat) (st : state σ) : outcome σ :=
  (bm_phase_warmup R fuel st).andThen (fun st1 => .ok (bm_phase_run C st1).2)

/-- Calls made by one worker thread, in program order. -/
inductive worker_event where
  | target_reg (tid : Nat)
  | barrier_wait_start
  | dispatch_operation (op : Nat)
  | stat_add_op (tid op result cycles : Nat) (skip : Bool)
  | generate_noise (max_noise : Nat) (random : Bool)
  | barrier_wait_stop
  | target_dereg (tid : Nat)
deriving DecidableEq, Repr

/-- What one worker observes from outside: `stop k` is the value returned by its `k`-th
call of `stop()`, `tsc n` the value of its `n`-th `read_time_stamp_counter()`, and
`dispatch k op` the result of its `k`-th `bm_dispatch_operation(&ctx, op)`. -/
structure worker_env where
  stop : Nat → Bool
  tsc : Nat → Nat
  dispatch : Nat → Nat → Nat

/-- Lines 100-117: the loop `while (!stop()) { ... i++; }`; `k` counts the iterations done,
`i` is the `size_t` cursor and `tr` the calls made so far. -/
def run_loop (E : worker_env) (D : ops_table) (max_noise tid : Nat) :
    Nat → Nat → Nat → List worker_event → Option (List worker_event)
  | 0, _, _, _ => none
  | fuel + 1, k, i, tr =>
    if E.stop k then some tr
    else
      let op := D.read (i % DISTRIBUTION_BOUND)
      let op_start_time := E.tsc (2 * k) % SIZE_MOD
      let result := E.dispatch k op
      let op_end_time := E.tsc (2 * k + 1) % SIZE_MOD
      let op_time := sub_u64 op_end_time op_start_time
      let skip := false
      run_loop E D max_noise tid fuel (k + 1) ((i + 1) % SIZE_MOD)
        (tr ++ [worker_event.dispatch_operation op,
                worker_event.stat_add_op tid op result op_time skip,
                worker_event.generate_noise max_noise false])

/-- Line 93: `i = DISTRIBUTION_BOUND * tid / g_params.num_threads`, the product taken in
`size_t`. -/
def start_slot (num_threads tid : Nat) : Nat :=
  (DISTRIBUTION_BOUND * tid % SIZE_MOD) / num_threads

/-- The thread body `run(args)` with `tid = args`; `none` when the fuel ends inside the loop. -/
def run (E : worker_env) (p : bm_params_t) (D : ops_table) (fuel tid : Nat) :
    Option (List worker_event) :=
  let i := start_slot p.num_threads tid
  let tr := [worker_event.target_reg tid, worker_event.barrier_wait_start]
  match run_loop E D p.max_noise tid fuel 0 i tr with
  | none => none
  | some tr1 => some (tr1 ++ [worker_event.barrier_wait_stop, worker_event.target_dereg tid])

/-- The calls of iteration `k` as the spec words them (4.5 step 4), for a worker whose
cursor started at `c`: dispatch `D[(c + k) mod 1024]`, then one `add_op` with the thread
id, that operation, its result, `end - start` and `skip = false`, then the noise. -/
def spec_iteration (E : worker_env) (D : ops_table) (max_noise tid c k : Nat) :
    List worker_event :=
  [worker_event.dispatch_operation (D.read ((c + k) % DISTRIBUTION_BOUND)),
   worker_event.stat_add_op tid (D.read ((c + k) % DISTRIBUTION_BOUND))
     (E.dispatch k (D.read ((c + k) % DISTRIBUTION_BOUND)))
     (sub_u64 (E.tsc (2 * k + 1) % SIZE_MOD) (E.tsc (2 * k) % SIZE_MOD)) false,
   worker_event.generate_noise max_noise false]

/-- Calls made inside the loop body. -/
def worker_event.in_loop : worker_event → Bool
  | .dispatch_operation _ => true
  | .stat_add_op _ _ _ _ _ => true
  | .generate_noise _ _ => true
  | _ => false

/-- Calls of `bm_target_reg`. -/
def worker_event.is_reg : worker_event → Bool
  | .target_reg _ => true
  | _ => false

/-- Calls of `bm_target_dereg`. -/
def worker_event.is_dereg : worker_event → Bool
  | .target_dereg _ => true
  | _ => false

/-- A worker environment whose stop flag is seen true at the fourth call of `stop()`. -/
def env_three : worker_env := ⟨fun k => decide (3 ≤ k), fun n => 10 * n, fun k op => k + op⟩

/-- A filled table for scenario D: operation 0 in slots 0..1022, operation 1 in slot 1023. -/
def table_D : ops_table :=
  ⟨List.replicate 1023 0 ++ [1], by rw [List.length_append, List.length_replicate]; rfl⟩

/-- A monotone 64-bit clock: 100 cycles per sample, saturating at 1000. -/
def sat_clock : clock_t := ⟨fun n => min (100 * n) 1000, fun n => n, fun a b => b - a⟩

/-! ## Statistics accumulator -/

/-- One cell of the accumulator: count, latency sum, latency min, latency max (spec 3). -/
structure stat_cell where
  count : Nat
  sum : Nat
  min : Nat
  max : Nat
deriving DecidableEq, Repr

/-- Modelled from the spec: `bm_stat_t` and `bm_stat_add_op` are declared in
`CSB/bm_stats.h`, which is not among the sources; `benchmark.c` only calls them.
Spec 3: a three-dimensional accumulator keyed by (thread id, operation id, result). -/
structure bm_stat_t where
  cell : Nat → Nat → Nat → stat_cell

/-- Modelled from the spec: `bm_stat_add_op` is not among the sources.  Spec 4.4:
"if `skip` is false, increment count, add `cycles` to sum, update min/max for cell
`(t, o, r)`". -/
def bm_stat_add_op (s : bm_stat_t) (t o r cycles : Nat) (skip : Bool) : bm_stat_t :=
  if skip then s
  else
    ⟨fun t1 o1 r1 =>
      if t1 = t ∧ o1 = o ∧ r1 = r then
        ⟨(s.cell t o r).count + 1, (s.cell t o r).sum + cycles,
          Nat.min (s.cell t o r).min cycles, Nat.max (s.cell t o r).max cycles⟩
      else s.cell t1 o1 r1⟩

/-- An accumulator in which every cell has already seen one sample of 50 cycles. -/
def stats_one : bm_stat_t := ⟨fun _ _ _ => ⟨1, 50, 50, 50⟩⟩

/-! ## Determinism of warmup -/

/-- Two states agree on everything the fill reads: weights, table contents, generator. -/
def same_core {σ : Type} (a b : state σ) : Prop :=
  a.g_params.op_dist = b.g_params.op_dist ∧ a.g_ops.slots = b.g_ops.slots ∧ a.rng = b.rng

/-- Two outcomes of the same code, possibly run with different fuel, do not contradict each
other: if both finished they finished the same way on agreeing states. -/
def agree {σ : Type} : outcome σ → outcome σ → Prop
  | .out_of_fuel, _ => True
  | _, .out_of_fuel => True
  | .ok a, .ok b => same_core a b
  | .assert_failed l _, .assert_failed m _ => l = m
  | .out_of_bounds _, .out_of_bounds _ => True
  | _, _ => False

/-- A state differing from `initial_state params_D 5` in every global but the weights. -/
def scrambled_state : state Nat where
  g_params := ⟨7, 3, 9, [1023, 1]⟩
  g_ops := table_D
  g_stop := true
  rng := 123
  tsc_reads := 4
  trace := [event.barrier_stop]

/-! ## The stop flag (benchmark.c lines 42, 72-76, 100, 237)

The driver and the workers are interleaved one statement at a time over the shared
`g_stop`.  Barrier waits are steps that may be delayed but never block, so every schedule
of the real program is among the schedules considered here. -/

/-- Control points of the driver inside `bm_phase_run`. -/
inductive driver_pc where
  | creating (i : Nat)
  | sample_max_start
  | start_barrier
  | sample_min_start
  | sleeping
  | signal_stop
  | sample_min_stop
  | stop_barrier
  | sample_max_stop
  | joining
  | finished
deriving DecidableEq, Repr

/-- Control points of a worker inside `run`. -/
inductive worker_pc where
  | not_created
  | registering
  | start_barrier
  | loop_test
  | loop_body
  | stop_barrier
  | deregistering
  | finished
deriving DecidableEq, Repr

/-- The shared flag, the control point of every thread, and the values returned so far by
calls of `stop()` together with the calling worker, oldest first. -/
structure harness where
  g_stop : Bool
  driver : driver_pc
  worker : Nat → worker_pc
  stop_results : List (Nat × Bool)

/-- Program start: `atomic_bool g_stop = false` (line 42), no thread created. -/
def harness_init : harness :=
  ⟨false, driver_pc.creating 0, fun _ => worker_pc.not_created, []⟩

/-- One statement of the driver in `bm_phase_run` with `T = g_params.num_threads`.  The only
statement touching `g_stop` is line 237, `atomic_store_explicit(&g_stop, true, ..)`. -/
def driver_step (T : Nat) (h : harness) : harness :=
  match h.driver with
  | .creating i =>
    if i < T then
      { h with worker := Function.update h.worker i worker_pc.registering,
               driver := driver_pc.creating (i + 1) }
    else { h with driver := driver_pc.sample_max_start }
  | .sample_max_start => { h with driver := driver_pc.start_barrier }
  | .start_barrier => { h with driver := driver_pc.sample_min_start }
  | .sample_min_start => { h with driver := driver_pc.sleeping }
  | .sleeping => { h with driver := driver_pc.signal_stop }
  | .signal_stop => { h with g_stop := true, driver := driver_pc.sample_min_stop }
  | .sample_min_stop => { h with driver := driver_pc.stop_barrier }
  | .stop_barrier => { h with driver := driver_pc.sample_max_stop }
  | .sample_max_stop => { h with driver := driver_pc.joining }
  | .joining => { h with driver := driver_pc.finished }
  | .finished => h

/-- One statement of worker `tid` in `run`.  At the loop test it calls `stop()`, an atomic
load of `g_stop` (line 75), and leaves the loop when the value is true. -/
def worker_step (h : harness) (tid : Nat) : harness :=
  match h.worker tid with
  | .not_created => h
  | .registering => { h with worker := Function.update h.worker tid worker_pc.start_barrier }
  | .start_barrier => { h with worker := Function.update h.worker tid worker_pc.loop_test }
  | .loop_test =>
    { h with
      stop_results := h.stop_results ++ [(tid, h.g_stop)],
      worker := Function.update h.worker tid
        (if h.g_stop then worker_pc.stop_barrier else worker_pc.loop_body) }
  | .loop_body => { h with worker := Function.update h.worker tid worker_pc.loop_test }
  | .stop_barrier => { h with worker := Function.update h.worker tid worker_pc.deregistering }
  | .deregistering => { h with worker := Function.update h.worker tid worker_pc.finished }
  | .finished => h

/-- One scheduling decision: `none` runs the driver, `some tid` runs worker `tid`. -/
def harness_step (T : Nat) (h : harness) (who : Option Nat) : harness :=
  match who with
  | none => driver_step T h
  | some tid => worker_step h tid

/-- The state reached from `h` under a schedule. -/
def exec (T : Nat) (sched : List (Option Nat)) (h : harness) : harness :=
  sched.foldl (harness_step T) h

/-- Invariant linking the flag to the values already returned by `stop()`. -/
def stop_inv (h : harness) : Prop :=
  List.Pairwise (fun a b : Nat × Bool => a.2 = true → b.2 = true) h.stop_results ∧
  ∀ p, p ∈ h.stop_results → p.2 = true → h.g_stop = true

/-! ## The operation-sequence parser `parse_ops`
(bench/network/server.c lines 62-103; the copies in bm-generator/network/client.c lines
26-67 and bm-generator/network/server.c lines 57-98 are the same text) -/

/-- The C struct `extracted_op`; both counters are `unsigned long`. -/
structure extracted_op where
  n : Nat
  sz : Nat
  is_write : Bool
deriving DecidableEq, Repr

/-- The C constant `ULONG_MAX` on a 64-bit target. -/
def ULONG_MAX : Nat := SIZE_MOD - 1

/-- The character `str[0]` of a C string: the terminating NUL once the text is used up. -/
def peek (s : List Char) : Char := s.headD (Char.ofNat 0)

/-- The C library predicate `isspace` in the "C" locale. -/
def is_space (c : Char) : Bool :=
  c.toNat = 32 || (9 ≤ c.toNat && c.toNat ≤ 13)

/-- The C library predicate `isdigit`. -/
def is_digit (c : Char) : Bool := 48 ≤ c.toNat && c.toNat ≤ 57

/-- Value of a run of decimal digits, most significant first. -/
def digits_value (ds : List Char) : Nat :=
  ds.foldl (fun acc c => 10 * acc + (c.toNat - 48)) 0

/-- The C library call `strtoul(str, &next, 10)` (ISO C 7.22.1.4): skip white space, take
an optional sign, then the longest run of decimal digits.  Returns the value and `next`.
With no digit nothing is converted: the value is 0 and `next = str`.  A value that does not
fit is `ULONG_MAX`; a leading minus negates in `unsigned long`. -/
def strtoul (str : List Char) : Nat × List Char :=
  let s1 := str.dropWhile is_space
  let neg := decide (peek s1 = '-')
  let s2 := if peek s1 = '-' ∨ peek s1 = '+' then s1.tail else s1
  let ds := s2.takeWhile is_digit
  if ds.isEmpty then (0, str)
  else
    let v := digits_value ds
    let value :=
      if ULONG_MAX < v then ULONG_MAX
      else if neg then (SIZE_MOD - v) % SIZE_MOD
      else v
    (value, s2.dropWhile is_digit)

/-- The loop of `parse_ops` with `rem = nops - i` iterations still allowed by `i < nops`.
Returns the value returned by `parse_ops` and the array `ops` as left behind. -/
def parse_loop : Nat → Nat → List Char → (Nat → extracted_op) → Int × (Nat → extracted_op)
  | 0, i, _, ops => ((i : Int), ops)
  | rem + 1, i, str, ops =>
    if peek str = Char.ofNat 0 then ((i : Int), ops)
    else
      let r1 := strtoul str
      let n := r1.1
      let next := r1.2
      if peek next = 'r' ∨ peek next = 'w' then
        let is_write := decide (peek next = 'w')
        let r2 := strtoul next.tail
        let sz := r2.1
        let next2 := r2.2
        if peek next2 = Char.ofNat 0 then
          parse_loop rem (i + 1) next2 (Function.update ops i ⟨n, sz, is_write⟩)
        else if peek next2 = '-' then
          parse_loop rem (i + 1) next2.tail (Function.update ops i ⟨n, sz, is_write⟩)
        else (-2, ops)
      else (-1, ops)

/-- The function `parse_ops(input, ops, nops)`. -/
def parse_ops (input : List Char) (ops : Nat → extracted_op) (nops : Nat) :
    Int × (Nat → extracted_op) :=
  parse_loop nops 0 input ops

/-- A zero-initialised `extracted_op`, as in the static array `eops`. -/
def zero_op : extracted_op := ⟨0, 0, false⟩

/-- The static array `eops[128]` before parsing. -/
def eops_init : Nat → extracted_op := fun _ => zero_op

/-! ## The operation-sequence grammar (spec 6.3) -/

/-- The text of one `step := INTEGER ("r" | "w") INTEGER`: the digits of the repeat count,
the direction letter, the digits of the size. -/
structure step_text where
  n_digits : List Char
  is_write : Bool
  sz_digits : List Char

/-- An `INTEGER` is a non-empty run of decimal digits. -/
def is_integer (ds : List Char) : Prop := ds ≠ [] ∧ ∀ c, c ∈ ds → is_digit c = true

/-- Both numbers of the step are integers. -/
def step_text.wf (s : step_text) : Prop := is_integer s.n_digits ∧ is_integer s.sz_digits

/-- The direction letter of a step. -/
def step_text.letter (s : step_text) : Char := if s.is_write then 'w' else 'r'

/-- The characters of one step. -/
def step_text.render (s : step_text) : List Char := s.n_digits ++ s.letter :: s.sz_digits

/-- The characters of `sequence := step ("-" step)*`. -/
def render_steps : List step_text → List Char
  | [] => []
  | [s] => s.render
  | s :: t :: rest => s.render ++ '-' :: render_steps (t :: rest)

/-- The input is a sentence of the operation-sequence grammar. -/
def in_grammar (input : List Char) : Prop :=
  ∃ steps : List step_text, steps ≠ [] ∧ (∀ s, s ∈ steps → s.wf) ∧ render_steps steps = input

/-- What `strtoul` returns for a run of digits: the value, or `ULONG_MAX` when it does not
fit in `unsigned long`. -/
def clamp_ulong (v : Nat) : Nat := if ULONG_MAX < v then ULONG_MAX else v

/-- The array entry a step stands for. -/
def step_text.entry (s : step_text) : extracted_op :=
  ⟨clamp_ulong (digits_value s.n_digits), clamp_ulong (digits_value s.sz_digits), s.is_write⟩

/-- The array after storing the entries of `steps` from index `i` on. -/
def store_steps : Nat → List step_text → (Nat → extracted_op) → (Nat → extracted_op)
  | _, [], ops => ops
  | i, s :: rest, ops => store_steps (i + 1) rest (Function.update ops i s.entry)

/-- The example of the usage text, `2r1024-1w32`, as two steps. -/
def usage_steps : List step_text :=
  [⟨['2'], false, ['1', '0', '2', '4']⟩, ⟨['1'], true, ['3', '2']⟩]

/-! ## Start of `main` in bench/network/server.c (lines 197-207) -/

/-- How the option handling of the bench server ends: both failures print a message and
`return 'P'`; otherwise the server goes on with the parsed sequence in `eops`. -/
inductive bench_server.startup where
  | no_sequence
  | parse_failure
  | serving (eops_sz : Nat) (eops : Nat → extracted_op)

/-- Lines 197-207: `program` is the argument of `-P`, if any. -/
def bench_server.main (program : Option (List Char)) : bench_server.startup :=
  match program with
  | none => .no_sequence
  | some text =>
    let r := parse_ops text eops_init 128
    if r.1 < 0 then .parse_failure else .serving r.1.toNat r.2

/-! ## The bench TCP server: one connection (bench/network/server.c lines 105-157, 264-275) -/

/-- The Linux constant `EPOLLIN`. -/
def EPOLLIN : Nat := 1

/-- The Linux constant `EPOLLOUT`. -/
def EPOLLOUT : Nat := 4

/-- The Linux constant `EPOLLERR`. -/
def EPOLLERR : Nat := 8

/-- The Linux constant `EPOLLHUP`. -/
def EPOLLHUP : Nat := 16

/-- The C macro `BUF_SIZE` (bench/network/server.c line 21). -/
def BUF_SIZE : Nat := 1024

/-- The C struct `conn_data` of the bench server. -/
structure bench_server.conn_data where
  n : Nat
  step : Nat
  last_epoll : Nat
  fd : Nat
deriving DecidableEq, Repr

/-- Lines 105-120, `config_wait`: the connection afterwards, and the event mask handed to
`epoll_ctl(EPOLL_CTL_MOD)` when the subscription changes. -/
def bench_server.config_wait (eops : Nat → extracted_op) (d : bench_server.conn_data) :
    bench_server.conn_data × Option Nat :=
  let next_epoll := if (eops d.step).is_write then EPOLLIN else EPOLLOUT
  if d.last_epoll = next_epoll then (d, none)
  else ({ d with last_epoll := next_epoll }, some next_epoll)

/-- Lines 122-130, `advance_step`: `d->n++` in `size_t`, then the comparison with the
repeat count of the current step. -/
def bench_server.advance_step (eops : Nat → extracted_op) (eops_sz : Nat)
    (d : bench_server.conn_data) : bench_server.conn_data :=
  let d1 := { d with n := (d.n + 1) % SIZE_MOD }
  if d1.n = (eops d1.step).n then
    { d1 with n := 0, step := ((d1.step + 1) % SIZE_MOD) % eops_sz }
  else d1

/-- How one call of `readwrite` ends. -/
inductive bench_server.rw_result where
  | unregistered
  | assert_failed (line : Nat)
  | done (d : bench_server.conn_data)
deriving DecidableEq, Repr

/-- Lines 150-156 of `readwrite`: `r` is what `send` or `recv` returned. -/
def bench_server.complete_io (eops : Nat → extracted_op) (eops_sz : Nat) (r : Int)
    (d : bench_server.conn_data) : bench_server.rw_result :=
  if r = -1 then .unregistered
  else .done (bench_server.config_wait eops (bench_server.advance_step eops eops_sz d)).1

/-- Lines 132-157, `readwrite`: `events` is `ev->events` and `io` the value the socket call
returns if one is made. -/
def bench_server.readwrite (eops : Nat → extracted_op) (eops_sz : Nat) (events : Nat)
    (io : Int) (d : bench_server.conn_data) : bench_server.rw_result :=
  if events &&& (EPOLLHUP ||| EPOLLERR) ≠ 0 then .unregistered
  else if ¬ ((eops d.step).sz < BUF_SIZE) then .assert_failed 142
  else if events &&& EPOLLOUT ≠ 0 then
    if (eops d.step).is_write then .assert_failed 144
    else bench_server.complete_io eops eops_sz io d
  else if events &&& EPOLLIN ≠ 0 then
    if (eops d.step).is_write then bench_server.complete_io eops eops_sz io d
    else .assert_failed 147
  else bench_server.complete_io eops eops_sz 0 d

/-- Lines 270-273 of `main`: the connection state created on accept. -/
def bench_server.accept (eops : Nat → extracted_op) (cfd : Nat) : bench_server.conn_data :=
  ⟨0, 0, if (eops 0).is_write then EPOLLIN else EPOLLOUT, cfd⟩

/-- The state `d2` is reached from `d` by `k` calls of `readwrite` that all succeeded. -/
inductive bench_server.reaches (eops : Nat → extracted_op) (eops_sz : Nat) :
    Nat → bench_server.conn_data → bench_server.conn_data → Prop where
  | start (d : bench_server.conn_data) : bench_server.reaches eops eops_sz 0 d d
  | next {k : Nat} {d d1 d2 : bench_server.conn_data} (events : Nat) (io : Int) :
      bench_server.reaches eops eops_sz k d d1 →
      bench_server.readwrite eops eops_sz events io d1 = .done d2 →
      bench_server.reaches eops eops_sz (k + 1) d d2

/-- The repetition property of step `s`: from a connection at `(step = s, n = 0)`, after
`k` successful operations with `k` below the repeat count the connection is still at step
`s` with `n = k`, and after exactly as many as the repeat count the cursor is at
`(s + 1) mod L` with `n = 0`. -/
def bench_server.repeats_then_advances (eops : Nat → extracted_op) (L s : Nat) : Prop :=
  ∀ (d d2 : bench_server.conn_data) (k : Nat), d.step = s → d.n = 0 →
    bench_server.reaches eops L k d d2 →
    (k < (eops s).n → d2.step = s ∧ d2.n = k) ∧
    (k = (eops s).n → d2.step = (s + 1) % L ∧ d2.n = 0)

/-- The connection invariant of the bench server. -/
def bench_server.conn_inv (eops : Nat → extracted_op) (L : Nat)
    (d : bench_server.conn_data) : Prop :=
  d.step < L ∧ d.n < (eops d.step).n ∧
  d.last_epoll = (if (eops d.step).is_write then EPOLLIN else EPOLLOUT)

/-- The sequence `0r5-1w3`: a sentence of the grammar whose first step has repeat count 0. -/
def zero_repeat_text : List Char := ("0r5-1w3").toList

/-- The sequence `2r5-1w3`. -/
def two_step_text : List Char := ("2r5-1w3").toList

/-! ## The three `config_wait` functions -/

/-- The C struct `serv_data` of bm-generator/network/client.c. -/
structure gen_client.serv_data where
  step : Nat
  last_epoll : Nat
  fd : Nat
deriving DecidableEq, Repr

/-- The C struct `serv_data` of bm-generator/network/server.c. -/
structure gen_server.serv_data where
  step : Nat
  fd : Nat
deriving DecidableEq, Repr

/-- bm-generator/network/client.c lines 86-101, `config_wait`: the connection afterwards,
and the event mask handed to `epoll_ctl(EPOLL_CTL_MOD)` when the subscription changes. -/
def gen_client.config_wait (eops : Nat → extracted_op) (d : gen_client.serv_data) :
    gen_client.serv_data × Option Nat :=
  let next_epoll := if (eops d.step).is_write then EPOLLOUT else EPOLLIN
  if d.last_epoll = next_epoll then (d, none)
  else ({ d with last_epoll := next_epoll }, some next_epoll)

/-- bm-generator/network/server.c lines 100-110, `config_wait`: the event mask handed to
`epoll_ctl(EPOLL_CTL_MOD)`; this server re-registers on every call. -/
def gen_server.config_wait (eops : Nat → extracted_op) (d : gen_server.serv_data) : Nat :=
  if (eops d.step).is_write then EPOLLIN else EPOLLOUT

/-- The states in which the `while (true)` loop of lines 180-186 is entered while
`fill_op` runs: a collecting version of `fill_op`. -/
def fill_op_starts {σ : Type} (R : random_t σ) (fuel i : Nat) : Nat → state σ → List (state σ)
  | 0, _ => []
  | n + 1, st =>
    st :: (match find_slot R i fuel st with
      | .ok st1 => fill_op_starts R fuel i n st1
      | _ => [])

/-- The states in which the rejection loop is entered while `fill_ops` runs. -/
def fill_ops_starts {σ : Type} (R : random_t σ) (fuel : Nat) :
    Nat → List Nat → state σ → List (state σ)
  | _, [], _ => []
  | i, w :: ws, st =>
    fill_op_starts R fuel i w st ++
      (match fill_op R fuel i w st with
        | .ok st1 => fill_ops_starts R fuel (i + 1) ws st1
        | _ => [])

/-- The states in which the rejection loop is entered during `bm_phase_warmup`, in order. -/
def warmup_starts {σ : Type} (R : random_t σ) (fuel : Nat) (st : state σ) : List (state σ) :=
  let st1 := { st with rng := R.random_init_seed 0, trace := st.trace ++ [event.seed 0] }
  if weights_total st1.g_params.op_dist = DISTRIBUTION_BOUND then
    fill_ops_starts R fuel 0 st1.g_params.op_dist (clear_ops DISTRIBUTION_BOUND 0 st1)
  else []

/-- Relation between the state `st` at the start of a stretch of the fill and a state `s`
reached after `m` placements: `m` more writes are logged and `m` fewer slots hold the
sentinel. -/
def after_placements {σ : Type} (st s : state σ) (m : Nat) : Prop :=
  s.g_ops.slots.count UINT32_MAX + m = st.g_ops.slots.count UINT32_MAX ∧
  s.trace.length = st.trace.length + m

/-! # Theorems -/

/-! ## Lemmas on outcomes -/

theorem post_andThen {σ : Type} {o : outcome σ} {k : state σ → outcome σ}
    {P Q : state σ → Prop} (ho : o.post P) (hk : ∀ st, P st → (k st).post Q) :
    (o.andThen k).post Q := by
  cases o with
  | ok st => exact hk st ho
  | out_of_fuel => exact True.intro
  | assert_failed l st => exact ho.elim
  | out_of_bounds st => exact ho.elim

theorem post_mono {σ : Type} {o : outcome σ} {P Q : state σ → Prop}
    (ho : o.post P) (h : ∀ st, P st → Q st) : o.post Q := by
  cases o with
  | ok st => exact h st ho
  | out_of_fuel => exact True.intro
  | assert_failed l st => exact ho.elim
  | out_of_bounds st => exact ho.elim

/-! ## Lemmas on the fill loops -/

/-- Overwriting a sentinel slot with a non-sentinel value moves one unit of count. -/
theorem count_set_sentinel (l : List Nat) (pos i : Nat) (hpos : pos < l.length)
    (hS : l.getD pos 0 = UINT32_MAX) (hi : i ≠ UINT32_MAX) :
    (l.set pos i).count UINT32_MAX + 1 = l.count UINT32_MAX ∧
    ∀ v, v ≠ UINT32_MAX → (l.set pos i).count v = l.count v + [i].count v := by
  have hget : l[pos] = UINT32_MAX := by
    rw [List.getD_eq_getElem?_getD, List.getElem?_eq_getElem hpos] at hS
    simpa using hS
  have hmem : UINT32_MAX ∈ l := by
    rw [← hget]; exact List.getElem_mem hpos
  have hone : 1 ≤ l.count UINT32_MAX := List.one_le_count_iff.mpr hmem
  constructor
  · rw [List.count_set _ _ _ _ hpos, hget]
    simp [hi]
    omega
  · intro v hv
    rw [List.count_set _ _ _ _ hpos, hget]
    have hne : ¬ (UINT32_MAX = v) := fun h => hv h.symm
    by_cases hiv : i = v
    · subst hiv; simp [hne]
    · simp [hne, hiv, List.count_cons]

/-- One pass of the rejection loop overwrites exactly one slot that held the sentinel. -/
theorem find_slot_post {σ : Type} (R : random_t σ) (hR : draws_in_range R) (i : Nat) :
    ∀ (fuel : Nat) (st : state σ),
      (find_slot R i fuel st).post (fun st1 =>
        st1.g_params = st.g_params ∧ st1.g_stop = st.g_stop ∧
        ∃ pos, pos < DISTRIBUTION_BOUND ∧ st.g_ops.slots.getD pos 0 = UINT32_MAX ∧
          st1.g_ops.slots = st.g_ops.slots.set pos i) := by
  intro fuel
  induction fuel with
  | zero => intro st; exact True.intro
  | succ n ih =>
    intro st
    unfold find_slot
    simp only
    have hlt := hR st.rng
    rw [if_pos hlt]
    split
    · rename_i hread
      refine ⟨rfl, rfl, _, hlt, hread, rfl⟩
    · exact post_mono (ih _) (fun st1 h => h)

theorem placed_refl {σ : Type} (st : state σ) : placed st st [] := by
  refine ⟨rfl, rfl, by simp, ?_⟩
  intro v _; simp

theorem placed_trans {σ : Type} {a b c : state σ} {xs ys : List Nat}
    (h1 : placed a b xs) (h2 : placed b c ys) : placed a c (xs ++ ys) := by
  obtain ⟨p1, s1, c1, r1⟩ := h1
  obtain ⟨p2, s2, c2, r2⟩ := h2
  refine ⟨p2.trans p1, s2.trans s1, ?_, ?_⟩
  · rw [List.length_append]; omega
  · intro v hv
    rw [r2 v hv, r1 v hv, List.count_append]; omega

theorem find_slot_placed {σ : Type} (R : random_t σ) (hR : draws_in_range R) (i : Nat)
    (hi : i ≠ UINT32_MAX) (fuel : Nat) (st : state σ) :
    (find_slot R i fuel st).post (fun st1 => placed st st1 [i]) := by
  refine post_mono (find_slot_post R hR i fuel st) ?_
  rintro st1 ⟨hp, hs, pos, hpos, hS, hset⟩
  have hlen : pos < st.g_ops.slots.length := by rw [st.g_ops.size_eq]; exact hpos
  have hc := count_set_sentinel st.g_ops.slots pos i hlen hS hi
  refine ⟨hp, hs, ?_, ?_⟩
  · rw [hset]; simpa using hc.1
  · intro v hv; rw [hset]; exact hc.2 v hv

theorem fill_op_placed {σ : Type} (R : random_t σ) (hR : draws_in_range R) (fuel i : Nat)
    (hi : i ≠ UINT32_MAX) :
    ∀ (n : Nat) (st : state σ),
      (fill_op R fuel i n st).post (fun st1 => placed st st1 (List.replicate n i)) := by
  intro n
  induction n with
  | zero => intro st; exact placed_refl st
  | succ n ih =>
    intro st
    unfold fill_op
    refine post_andThen (find_slot_placed R hR i hi fuel st) ?_
    intro st1 h1
    refine post_mono (ih st1) ?_
    intro st2 h2
    have h := placed_trans h1 h2
    simpa [List.replicate_succ] using h

theorem fill_ops_placed {σ : Type} (R : random_t σ) (hR : draws_in_range R) (fuel : Nat) :
    ∀ (ws : List Nat) (i : Nat) (st : state σ), i + ws.length ≤ UINT32_MAX →
      (fill_ops R fuel i ws st).post (fun st1 => placed st st1 (expand i ws)) := by
  intro ws
  induction ws with
  | nil => intro i st _; exact placed_refl st
  | cons w ws ih =>
    intro i st hlen
    simp only [List.length_cons] at hlen
    unfold fill_ops
    refine post_andThen (fill_op_placed R hR fuel i (by omega) w st) ?_
    intro st1 h1
    refine post_mono (ih (i + 1) st1 (by omega)) ?_
    intro st2 h2
    exact placed_trans h1 h2

/-! ## Lemmas on clearing, weights and the expected multiset -/

theorem set_op_fields {σ : Type} (st : state σ) (pos v : Nat) :
    (st.set_op pos v).g_params = st.g_params ∧ (st.set_op pos v).g_stop = st.g_stop ∧
    (st.set_op pos v).rng = st.rng ∧
    (st.set_op pos v).g_ops.slots = st.g_ops.slots.set pos v :=
  ⟨rfl, rfl, rfl, rfl⟩

theorem clear_ops_fields {σ : Type} :
    ∀ (n i : Nat) (st : state σ),
      (clear_ops n i st).g_params = st.g_params ∧ (clear_ops n i st).g_stop = st.g_stop ∧
      (clear_ops n i st).rng = st.rng := by
  intro n
  induction n with
  | zero => intro i st; exact ⟨rfl, rfl, rfl⟩
  | succ n ih => intro i st; exact ih (i + 1) (st.set_op i UINT32_MAX)

theorem clear_ops_get {σ : Type} :
    ∀ (n i : Nat) (st : state σ) (k : Nat),
      (clear_ops n i st).g_ops.slots[k]? =
        if i ≤ k ∧ k < i + n ∧ k < DISTRIBUTION_BOUND then some UINT32_MAX
        else st.g_ops.slots[k]? := by
  intro n
  induction n with
  | zero =>
    intro i st k
    have : ¬ (i ≤ k ∧ k < i + 0 ∧ k < DISTRIBUTION_BOUND) := by omega
    rw [if_neg this]; rfl
  | succ n ih =>
    intro i st k
    show (clear_ops n (i + 1) (st.set_op i UINT32_MAX)).g_ops.slots[k]? = _
    rw [ih (i + 1) (st.set_op i UINT32_MAX) k, (set_op_fields st i UINT32_MAX).2.2.2,
      List.getElem?_set, st.g_ops.size_eq]
    by_cases hik : i = k
    · subst hik
      by_cases hb : i < DISTRIBUTION_BOUND
      · have h1 : ¬ (i + 1 ≤ i ∧ i < i + 1 + n ∧ i < DISTRIBUTION_BOUND) := by omega
        have h2 : i ≤ i ∧ i < i + (n + 1) ∧ i < DISTRIBUTION_BOUND := ⟨le_refl i, by omega, hb⟩
        rw [if_neg h1, if_pos rfl, if_pos hb, if_pos h2]
      · have h1 : ¬ (i + 1 ≤ i ∧ i < i + 1 + n ∧ i < DISTRIBUTION_BOUND) := by omega
        have h2 : ¬ (i ≤ i ∧ i < i + (n + 1) ∧ i < DISTRIBUTION_BOUND) := fun h => hb h.2.2
        rw [if_neg h1, if_pos rfl, if_neg hb, if_neg h2]
        symm
        apply List.getElem?_eq_none
        rw [st.g_ops.size_eq]; omega
    · rw [if_neg hik]
      by_cases h1 : i + 1 ≤ k ∧ k < i + 1 + n ∧ k < DISTRIBUTION_BOUND
      · have h2 : i ≤ k ∧ k < i + (n + 1) ∧ k < DISTRIBUTION_BOUND := by omega
        rw [if_pos h1, if_pos h2]
      · have h2 : ¬ (i ≤ k ∧ k < i + (n + 1) ∧ k < DISTRIBUTION_BOUND) := by omega
        rw [if_neg h1, if_neg h2]

/-- After lines 172-174 every slot holds the sentinel. -/
theorem clear_ops_all {σ : Type} (st : state σ) :
    (clear_ops DISTRIBUTION_BOUND 0 st).g_ops.slots =
      List.replicate DISTRIBUTION_BOUND UINT32_MAX := by
  apply List.ext_getElem?
  intro k
  rw [clear_ops_get, List.getElem?_replicate]
  by_cases hk : k < DISTRIBUTION_BOUND
  · have : 0 ≤ k ∧ k < 0 + DISTRIBUTION_BOUND ∧ k < DISTRIBUTION_BOUND := by omega
    rw [if_pos this, if_pos hk]
  · have : ¬ (0 ≤ k ∧ k < 0 + DISTRIBUTION_BOUND ∧ k < DISTRIBUTION_BOUND) := by omega
    rw [if_neg this, if_neg hk]
    apply List.getElem?_eq_none
    rw [st.g_ops.size_eq]; omega

theorem foldl_total (w : List Nat) :
    ∀ a, a < SIZE_MOD →
      w.foldl (fun total x => (total + x) % SIZE_MOD) a = (a + w.sum) % SIZE_MOD := by
  induction w with
  | nil => intro a ha; simp [Nat.mod_eq_of_lt ha]
  | cons x xs ih =>
    intro a _
    have hpos : 0 < SIZE_MOD := by unfold SIZE_MOD; positivity
    rw [List.foldl_cons, ih _ (Nat.mod_lt _ hpos), List.sum_cons, Nat.mod_add_mod, Nat.add_assoc]

/-- The `size_t` total is the mathematical sum reduced modulo `2^64`. -/
theorem weights_total_eq (w : List Nat) : weights_total w = w.sum % SIZE_MOD := by
  unfold weights_total
  rw [foldl_total w 0 (by unfold SIZE_MOD; positivity), Nat.zero_add]

theorem weights_total_of_sum {w : List Nat} (h : w.sum = DISTRIBUTION_BOUND) :
    weights_total w = DISTRIBUTION_BOUND := by
  rw [weights_total_eq, h]; decide

theorem expand_length : ∀ (ws : List Nat) (i : Nat), (expand i ws).length = ws.sum := by
  intro ws
  induction ws with
  | nil => intro i; rfl
  | cons w ws ih => intro i; simp [expand, ih]

theorem count_expand : ∀ (ws : List Nat) (i v : Nat),
    (expand i ws).count v = if i ≤ v then ws.getD (v - i) 0 else 0 := by
  intro ws
  induction ws with
  | nil => intro i v; simp [expand]
  | cons w ws ih =>
    intro i v
    simp only [expand, List.count_append, ih, List.count_replicate]
    rcases Nat.lt_trichotomy v i with h | h | h
    · have h1 : ¬ (i + 1 ≤ v) := by omega
      have h2 : ¬ (i ≤ v) := by omega
      have h3 : ¬ (i = v) := by omega
      simp [h1, h2, h3]
    · subst h
      simp
    · have h1 : i + 1 ≤ v := by omega
      have h2 : i ≤ v := by omega
      have h3 : ¬ (i = v) := by omega
      obtain ⟨d, hd⟩ : ∃ d, v - i = d + 1 := ⟨v - i - 1, by omega⟩
      have hd2 : v - (i + 1) = d := by omega
      simp [h1, h2, h3, hd, hd2]

theorem mem_expand {ws : List Nat} {i v : Nat} (h : v ∈ expand i ws) :
    i ≤ v ∧ v < i + ws.length := by
  have hc : 0 < (expand i ws).count v := List.count_pos_iff.mpr h
  rw [count_expand] at hc
  by_cases hiv : i ≤ v
  · rw [if_pos hiv] at hc
    refine ⟨hiv, ?_⟩
    by_contra hlt
    have : ws.getD (v - i) 0 = 0 := by
      rw [List.getD_eq_getElem?_getD, List.getElem?_eq_none (by omega)]; rfl
    omega
  · rw [if_neg hiv] at hc; omega

/-! ## The table built by `bm_phase_warmup` -/

theorem fill_from_clear {σ : Type} (R : random_t σ) (hR : draws_in_range R) (fuel : Nat)
    (st : state σ) (hsum : st.g_params.op_dist.sum = DISTRIBUTION_BOUND)
    (hK : st.g_params.op_dist_len ≤ UINT32_MAX) :
    (fill_ops R fuel 0 st.g_params.op_dist (clear_ops DISTRIBUTION_BOUND 0 st)).post
      (table_matches st) := by
  have hfill := fill_ops_placed R hR fuel st.g_params.op_dist 0
    (clear_ops DISTRIBUTION_BOUND 0 st) (by unfold bm_params_t.op_dist_len at hK; omega)
  refine post_mono hfill ?_
  rintro st1 ⟨hp, hs, hc, hr⟩
  have hf := clear_ops_fields DISTRIBUTION_BOUND 0 st
  rw [clear_ops_all, List.count_replicate_self, expand_length, hsum] at hc
  refine ⟨hp.trans hf.1, hs.trans hf.2.1, by omega, ?_⟩
  intro v hv
  rw [hr v hv, clear_ops_all, List.count_replicate]
  have : ¬ (UINT32_MAX = v) := fun h => hv h.symm
  simp [this]

theorem check_ops_of_matches {σ : Type} {st st1 : state σ} (h : table_matches st st1) :
    check_ops st1 = .ok st1 := by
  obtain ⟨hp, _, hc, hr⟩ := h
  unfold check_ops
  rw [if_pos]
  rw [List.all_eq_true]
  intro v hv
  have hne : v ≠ UINT32_MAX := by
    intro h; subst h
    exact (List.count_eq_zero.mp hc) hv
  have hpos : 0 < st1.g_ops.slots.count v := List.count_pos_iff.mpr hv
  rw [hr v hne] at hpos
  have hmem := mem_expand (List.count_pos_iff.mp hpos)
  rw [hp]
  simp only [decide_eq_true_eq]
  unfold bm_params_t.op_dist_len
  omega

/-- Partial correctness of the distribution part of warmup. -/
theorem warmup_post {σ : Type} (R : random_t σ) (hR : draws_in_range R) (fuel : Nat)
    (st : state σ) (hsum : st.g_params.op_dist.sum = DISTRIBUTION_BOUND)
    (hK : st.g_params.op_dist_len ≤ UINT32_MAX) :
    (bm_phase_warmup R fuel st).post (table_matches st) := by
  unfold bm_phase_warmup
  simp only
  rw [if_pos (weights_total_of_sum hsum)]
  have h := fill_from_clear R hR fuel
    { st with rng := R.random_init_seed 0, trace := st.trace ++ [event.seed 0] } hsum hK
  refine post_andThen h ?_
  intro st1 h1
  rw [check_ops_of_matches h1]
  exact h1

theorem ok_of_post {σ : Type} {o : outcome σ} {Q : state σ → Prop} (h : o.post Q)
    (hne : o ≠ .out_of_fuel) : ∃ st1, o = .ok st1 ∧ Q st1 := by
  cases o with
  | ok st => exact ⟨st, rfl, h⟩
  | out_of_fuel => exact (hne rfl).elim
  | assert_failed l st => exact h.elim
  | out_of_bounds st => exact h.elim

/-- C1. For weights summing to 1024 (with operation ids below the sentinel `UINT32_MAX`)
and a generator whose draws lie in `[0, 1023]`, whenever the rejection-sampling fill of
`bm_phase_warmup` terminates the warmup returns normally, every operation id `i < K`
occupies exactly `W[i]` slots of `g_ops`, and no slot holds the sentinel. -/
theorem warmup_table_counts {σ : Type} (R : random_t σ) (fuel : Nat) (st : state σ)
    (hsum : st.g_params.op_dist.sum = DISTRIBUTION_BOUND)
    (hK : st.g_params.op_dist_len ≤ UINT32_MAX)
    (hR : draws_in_range R)
    (hterm : bm_phase_warmup R fuel st ≠ .out_of_fuel) :
    ∃ st1, bm_phase_warmup R fuel st = .ok st1 ∧
      (∀ i, i < st.g_params.op_dist_len →
        st1.g_ops.slots.count i = st.g_params.op_dist.getD i 0) ∧
      UINT32_MAX ∉ st1.g_ops.slots := by
  obtain ⟨st1, hok, _, _, hc, hr⟩ := ok_of_post (warmup_post R hR fuel st hsum hK) hterm
  refine ⟨st1, hok, ?_, List.count_eq_zero.mp hc⟩
  intro i hi
  rw [hr i (by omega), count_expand]
  simp

/-! ## The counter generator fills the table without a single rejection -/

theorem set_length_append (pre : List Nat) (a b : Nat) (rest : List Nat) :
    (pre ++ a :: rest).set pre.length b = pre ++ b :: rest := by
  induction pre with
  | nil => rfl
  | cons x xs ih => simp [ih]

theorem getD_length_append (pre : List Nat) (a d : Nat) (rest : List Nat) :
    (pre ++ a :: rest).getD pre.length d = a := by
  induction pre with
  | nil => rfl
  | cons x xs ih => simpa using ih

theorem counter_find_slot (i fuel : Nat) (st : state Nat) (pre : List Nat) (k : Nat)
    (h : counter_inv st pre (k + 1)) :
    ∃ st1, find_slot counter_rng i (fuel + 1) st = .ok st1 ∧
      counter_inv st1 (pre ++ [i]) k ∧ st1.g_params = st.g_params := by
  obtain ⟨hrng, hslots, hlen⟩ := h
  have hm : pre.length < DISTRIBUTION_BOUND := by omega
  have hdraw : (counter_rng.random_next_int st.rng 0 (DISTRIBUTION_BOUND - 1)).1 = pre.length := by
    show 0 + st.rng % (DISTRIBUTION_BOUND - 1 - 0 + 1) = pre.length
    rw [hrng]
    have : DISTRIBUTION_BOUND - 1 - 0 + 1 = DISTRIBUTION_BOUND := by decide
    rw [this, Nat.mod_eq_of_lt hm, Nat.zero_add]
  have hread : st.g_ops.slots.getD pre.length 0 = UINT32_MAX := by
    rw [hslots, List.replicate_succ]; exact getD_length_append _ _ _ _
  unfold find_slot
  simp only
  rw [hdraw, if_pos hm]
  have hread2 : ({ st with rng := (counter_rng.random_next_int st.rng 0
      (DISTRIBUTION_BOUND - 1)).2 } : state Nat).g_ops.read pre.length = UINT32_MAX := hread
  rw [if_pos hread2]
  refine ⟨_, rfl, ⟨?_, ?_, ?_⟩, rfl⟩
  · show st.rng + 1 = (pre ++ [i]).length
    rw [hrng, List.length_append]; rfl
  · show st.g_ops.slots.set pre.length i = _
    rw [hslots, List.replicate_succ, set_length_append, List.append_assoc]; rfl
  · rw [List.length_append]; simp only [List.length_singleton]; omega

theorem counter_fill_op (i fuel : Nat) :
    ∀ (n : Nat) (st : state Nat) (pre : List Nat) (k : Nat), counter_inv st pre (k + n) →
      ∃ st1, fill_op counter_rng (fuel + 1) i n st = .ok st1 ∧
        counter_inv st1 (pre ++ List.replicate n i) k ∧ st1.g_params = st.g_params := by
  intro n
  induction n with
  | zero => intro st pre k h; exact ⟨st, rfl, by simpa using h, rfl⟩
  | succ n ih =>
    intro st pre k h
    obtain ⟨st1, h1, inv1, p1⟩ := counter_find_slot i fuel st pre (k + n) h
    obtain ⟨st2, h2, inv2, p2⟩ := ih st1 (pre ++ [i]) k inv1
    refine ⟨st2, ?_, ?_, p2.trans p1⟩
    · unfold fill_op; rw [h1]; exact h2
    · simpa [List.replicate_succ] using inv2

theorem counter_fill_ops (fuel : Nat) :
    ∀ (ws : List Nat) (i : Nat) (st : state Nat) (pre : List Nat) (k : Nat),
      counter_inv st pre (k + ws.sum) →
      ∃ st1, fill_ops counter_rng (fuel + 1) i ws st = .ok st1 ∧
        counter_inv st1 (pre ++ expand i ws) k ∧ st1.g_params = st.g_params := by
  intro ws
  induction ws with
  | nil => intro i st pre k h; exact ⟨st, rfl, by simpa [expand] using h, rfl⟩
  | cons w ws ih =>
    intro i st pre k h
    have h0 : counter_inv st pre (k + ws.sum + w) := by
      have : k + (w :: ws).sum = k + ws.sum + w := by simp; omega
      rw [← this]; exact h
    obtain ⟨st1, h1, inv1, p1⟩ := counter_fill_op i fuel w st pre (k + ws.sum) h0
    obtain ⟨st2, h2, inv2, p2⟩ := ih (i + 1) st1 (pre ++ List.replicate w i) k inv1
    refine ⟨st2, ?_, ?_, p2.trans p1⟩
    · unfold fill_ops; rw [h1]; exact h2
    · simpa [expand, List.append_assoc] using inv2

/-- With the counter generator and one unit of fuel per search, warmup terminates for every
weight vector summing to 1024 and leaves the operations in weight order. -/
theorem counter_warmup_ok (fuel : Nat) (st : state Nat)
    (hsum : st.g_params.op_dist.sum = DISTRIBUTION_BOUND) :
    ∃ st1, bm_phase_warmup counter_rng (fuel + 1) st = .ok st1 ∧
      st1.g_ops.slots = expand 0 st.g_params.op_dist ∧ st1.g_params = st.g_params := by
  let st0 : state Nat :=
    { st with rng := counter_rng.random_init_seed 0, trace := st.trace ++ [event.seed 0] }
  have hinv : counter_inv (clear_ops DISTRIBUTION_BOUND 0 st0) []
      (0 + st0.g_params.op_dist.sum) := by
    refine ⟨?_, ?_, ?_⟩
    · rw [(clear_ops_fields DISTRIBUTION_BOUND 0 st0).2.2]; rfl
    · rw [clear_ops_all]
      show _ = [] ++ List.replicate (0 + st.g_params.op_dist.sum) UINT32_MAX
      rw [hsum]; simp
    · show 0 + (0 + st.g_params.op_dist.sum) = DISTRIBUTION_BOUND
      omega
  obtain ⟨st1, h1, ⟨_, hslots, _⟩, p1⟩ :=
    counter_fill_ops fuel st0.g_params.op_dist 0 _ [] 0 hinv
  have hp : st1.g_params = st.g_params := p1.trans (clear_ops_fields _ _ st0).1
  have hs : st1.g_ops.slots = expand 0 st.g_params.op_dist := by
    rw [hslots]; simp
  have hcheck : check_ops st1 = .ok st1 := by
    unfold check_ops
    rw [if_pos]
    rw [List.all_eq_true]
    intro v hv
    rw [hs] at hv
    have := mem_expand hv
    rw [hp]
    simp only [decide_eq_true_eq]
    unfold bm_params_t.op_dist_len
    omega
  refine ⟨st1, ?_, hs, hp⟩
  unfold bm_phase_warmup
  simp only
  rw [if_pos (weights_total_of_sum hsum)]
  show (fill_ops counter_rng (fuel + 1) 0 st0.g_params.op_dist
    (clear_ops DISTRIBUTION_BOUND 0 st0)).andThen check_ops = _
  rw [h1]
  exact hcheck

theorem counter_draws_in_range : draws_in_range counter_rng := by
  intro s
  show 0 + s % (DISTRIBUTION_BOUND - 1 - 0 + 1) < DISTRIBUTION_BOUND
  have : DISTRIBUTION_BOUND - 1 - 0 + 1 = DISTRIBUTION_BOUND := by decide
  rw [this, Nat.zero_add]
  exact Nat.mod_lt _ (by decide)

theorem params_D_sum : params_D.op_dist.sum = DISTRIBUTION_BOUND := by decide

theorem warmup_table_counts_witness :
    ∃ st1, bm_phase_warmup counter_rng 1 (initial_state params_D 7) = .ok st1 ∧
      (∀ i, i < (initial_state params_D (7 : Nat)).g_params.op_dist_len →
        st1.g_ops.slots.count i = (initial_state params_D (7 : Nat)).g_params.op_dist.getD i 0) ∧
      UINT32_MAX ∉ st1.g_ops.slots :=
  warmup_table_counts counter_rng 1 (initial_state params_D 7) params_D_sum (by decide)
    counter_draws_in_range
    (by
      obtain ⟨st1, h, _⟩ := counter_warmup_ok 0 (initial_state params_D 7) params_D_sum
      rw [h]; exact fun h => outcome.noConfusion h)

/-! ## Windows of 1024 consecutive reads -/

theorem window_eq_rotate (D : List Nat) (hD : D.length = DISTRIBUTION_BOUND) (c : Nat) :
    window D c = D.rotate c := by
  apply List.ext_getElem
  · simp [window, hD]
  · intro n h1 h2
    have hn : n < DISTRIBUTION_BOUND := by simpa [window] using h1
    rw [List.getElem_rotate]
    simp only [window, List.getElem_map, List.getElem_range, hD]
    have hlt : (c + n) % DISTRIBUTION_BOUND < D.length := by
      rw [hD]; exact Nat.mod_lt _ (by decide)
    rw [List.getD_eq_getElem?_getD, List.getElem?_eq_getElem hlt]
    simp [Nat.add_comm]

theorem table_perm_expand {σ : Type} {st st1 : state σ} (h : table_matches st st1)
    (hK : st.g_params.op_dist_len ≤ UINT32_MAX) :
    List.Perm st1.g_ops.slots (expand 0 st.g_params.op_dist) := by
  obtain ⟨_, _, hc, hr⟩ := h
  rw [List.perm_iff_count]
  intro v
  by_cases hv : v = UINT32_MAX
  · subst hv
    rw [hc]
    symm
    rw [List.count_eq_zero]
    intro hmem
    have := mem_expand hmem
    unfold bm_params_t.op_dist_len at hK
    omega
  · exact hr v hv

/-- C2. For a table built by `bm_phase_warmup` from weights summing to 1024 and any
starting cursor `c`, the 1024 ids `D[(c + k) mod 1024]`, `k = 0..1023`, are a permutation
of the multiset holding each id `i` exactly `W[i]` times; for `W = [1023, 1]` the id 1
occurs exactly once in the window. -/
theorem window_perm_weights {σ : Type} (R : random_t σ) (fuel : Nat) (st : state σ)
    (D : List Nat) (c : Nat)
    (hsum : st.g_params.op_dist.sum = DISTRIBUTION_BOUND)
    (hK : st.g_params.op_dist_len ≤ UINT32_MAX)
    (hR : draws_in_range R)
    (hD : (bm_phase_warmup R fuel st).table = some D) :
    List.Perm (window D c) (expand 0 st.g_params.op_dist) ∧
    (∀ i, (window D c).count i = st.g_params.op_dist.getD i 0) ∧
    (st.g_params.op_dist = [1023, 1] → (window D c).count 1 = 1) := by
  have hpost := warmup_post R hR fuel st hsum hK
  have hperm : List.Perm (window D c) (expand 0 st.g_params.op_dist) := by
    cases hrun : bm_phase_warmup R fuel st with
    | ok st1 =>
      rw [hrun] at hpost hD
      have hDeq : st1.g_ops.slots = D := by simpa [outcome.table] using hD
      rw [window_eq_rotate D (by rw [← hDeq]; exact st1.g_ops.size_eq) c, ← hDeq]
      exact (List.rotate_perm _ _).trans (table_perm_expand hpost hK)
    | out_of_fuel => rw [hrun] at hD; simp [outcome.table] at hD
    | assert_failed l s => rw [hrun] at hD; simp [outcome.table] at hD
    | out_of_bounds s => rw [hrun] at hD; simp [outcome.table] at hD
  have hcount : ∀ i, (window D c).count i = st.g_params.op_dist.getD i 0 := by
    intro i
    rw [hperm.count_eq, count_expand]
    simp
  refine ⟨hperm, hcount, ?_⟩
  intro hW
  rw [hcount 1, hW]
  rfl

theorem counter_warmup_table (fuel : Nat) (st : state Nat)
    (hsum : st.g_params.op_dist.sum = DISTRIBUTION_BOUND) :
    (bm_phase_warmup counter_rng (fuel + 1) st).table = some (expand 0 st.g_params.op_dist) := by
  obtain ⟨st1, h, hs, _⟩ := counter_warmup_ok fuel st hsum
  rw [h]
  show some st1.g_ops.slots = _
  rw [hs]

theorem window_perm_weights_witness :
    List.Perm (window (expand 0 params_D.op_dist) 256) (expand 0 params_D.op_dist) ∧
    (∀ i, (window (expand 0 params_D.op_dist) 256).count i = params_D.op_dist.getD i 0) ∧
    (params_D.op_dist = [1023, 1] → (window (expand 0 params_D.op_dist) 256).count 1 = 1) :=
  window_perm_weights counter_rng 1 (initial_state params_D 0) (expand 0 params_D.op_dist) 256
    params_D_sum (by decide) counter_draws_in_range
    (counter_warmup_table 0 (initial_state params_D 0) params_D_sum)

/-! ## The two assertions of `bm_phase_warmup` -/

theorem cursor_step (i c k : Nat) (h : i % DISTRIBUTION_BOUND = (c + k) % DISTRIBUTION_BOUND) :
    ((i + 1) % SIZE_MOD) % DISTRIBUTION_BOUND = (c + (k + 1)) % DISTRIBUTION_BOUND := by
  simp only [DISTRIBUTION_BOUND, SIZE_MOD] at *
  omega

theorem run_loop_spec (E : worker_env) (D : ops_table) (max_noise tid c : Nat) :
    ∀ (n fuel k i : Nat) (tr : List worker_event),
      i % DISTRIBUTION_BOUND = (c + k) % DISTRIBUTION_BOUND →
      (∀ j, k ≤ j → j < k + n → E.stop j = false) → E.stop (k + n) = true → n < fuel →
      run_loop E D max_noise tid fuel k i tr =
        some (tr ++ (List.range' k n).flatMap (spec_iteration E D max_noise tid c)) := by
  intro n
  induction n with
  | zero =>
    intro fuel k i tr _ _ hstop hfuel
    obtain ⟨f, rfl⟩ : ∃ f, fuel = f + 1 := ⟨fuel - 1, by omega⟩
    rw [Nat.add_zero] at hstop
    unfold run_loop
    rw [if_pos hstop]
    simp
  | succ n ih =>
    intro fuel k i tr hi hrun hstop hfuel
    obtain ⟨f, rfl⟩ : ∃ f, fuel = f + 1 := ⟨fuel - 1, by omega⟩
    have hk : E.stop k = false := hrun k (le_refl k) (by omega)
    unfold run_loop
    rw [hk]
    simp only [Bool.false_eq_true, if_false]
    rw [ih f (k + 1) ((i + 1) % SIZE_MOD) _ (cursor_step i c k hi)
      (fun j h1 h2 => hrun j (by omega) (by omega))
      (by rw [show k + 1 + n = k + (n + 1) by omega]; exact hstop) (by omega)]
    rw [List.range'_succ, List.flatMap_cons, hi]
    simp [spec_iteration, List.append_assoc]

/-- C4. A worker `t` (with `1024 * t` representable in `size_t`) that sees `stop()` false
`n` times and then true returns, given fuel for `n + 1` loop tests, after exactly these
calls: registration and start barrier, then for each `k < n` in order the dispatch of
`D[((1024 * t) / T + k) mod 1024]` followed by one `bm_stat_add_op` carrying thread id `t`,
that operation id, the result of that dispatch, the 64-bit difference of the end and start
timestamps of that dispatch and `skip = false`, then the noise call; finally the stop
barrier and deregistration. -/
theorem run_iterations (E : worker_env) (p : bm_params_t) (D : ops_table) (fuel t n : Nat)
    (hmul : DISTRIBUTION_BOUND * t < SIZE_MOD)
    (hrun : ∀ k, k < n → E.stop k = false) (hstop : E.stop n = true) (hfuel : n < fuel) :
    run E p D fuel t =
      some ([worker_event.target_reg t, worker_event.barrier_wait_start] ++
        (List.range n).flatMap
          (spec_iteration E D p.max_noise t (DISTRIBUTION_BOUND * t / p.num_threads)) ++
        [worker_event.barrier_wait_stop, worker_event.target_dereg t]) := by
  unfold run start_slot
  simp only
  rw [Nat.mod_eq_of_lt hmul]
  rw [run_loop_spec E D p.max_noise t (DISTRIBUTION_BOUND * t / p.num_threads) n fuel 0
    (DISTRIBUTION_BOUND * t / p.num_threads) _ (by rw [Nat.add_zero])
    (fun j _ h2 => hrun j (by omega)) (by rw [Nat.zero_add]; exact hstop) hfuel]
  rw [List.range_eq_range']

theorem run_iterations_witness :
    run env_three params_D table_D 10 1 =
      some ([worker_event.target_reg 1, worker_event.barrier_wait_start] ++
        (List.range 3).flatMap
          (spec_iteration env_three table_D params_D.max_noise 1
            (DISTRIBUTION_BOUND * 1 / params_D.num_threads)) ++
        [worker_event.barrier_wait_stop, worker_event.target_dereg 1]) :=
  run_iterations env_three params_D table_D 10 1 3 (by decide)
    (by intro k hk; have h : ¬ (3 ≤ k) := by omega
        simp [env_three, h]) (by decide) (by decide)

theorem run_loop_body (E : worker_env) (D : ops_table) (max_noise tid : Nat) :
    ∀ (fuel k i : Nat) (tr : List worker_event),
      (∃ n, k ≤ n ∧ E.stop n = true ∧ n - k < fuel) →
      ∃ body, run_loop E D max_noise tid fuel k i tr = some (tr ++ body) ∧
        ∀ e, e ∈ body → e.in_loop = true := by
  intro fuel
  induction fuel with
  | zero => rintro k i tr ⟨n, _, _, h⟩; omega
  | succ f ih =>
    rintro k i tr ⟨n, hkn, hstop, hlt⟩
    unfold run_loop
    by_cases hk : E.stop k = true
    · rw [if_pos hk]
      exact ⟨[], by simp, by simp⟩
    · rw [if_neg hk]
      have hne : k ≠ n := fun h => hk (h ▸ hstop)
      obtain ⟨body, hb, hall⟩ := ih (k + 1) ((i + 1) % SIZE_MOD)
        (tr ++ [worker_event.dispatch_operation (D.read (i % DISTRIBUTION_BOUND)),
          worker_event.stat_add_op tid (D.read (i % DISTRIBUTION_BOUND))
            (E.dispatch k (D.read (i % DISTRIBUTION_BOUND)))
            (sub_u64 (E.tsc (2 * k + 1) % SIZE_MOD) (E.tsc (2 * k) % SIZE_MOD)) false,
          worker_event.generate_noise max_noise false])
        ⟨n, by omega, hstop, by omega⟩
      refine ⟨worker_event.dispatch_operation (D.read (i % DISTRIBUTION_BOUND)) ::
          worker_event.stat_add_op tid (D.read (i % DISTRIBUTION_BOUND))
            (E.dispatch k (D.read (i % DISTRIBUTION_BOUND)))
            (sub_u64 (E.tsc (2 * k + 1) % SIZE_MOD) (E.tsc (2 * k) % SIZE_MOD)) false ::
          worker_event.generate_noise max_noise false :: body, ?_, ?_⟩
      · simp only
        rw [hb]
        simp
      · intro e he
        simp only [List.mem_cons] at he
        rcases he with h | h | h | h
        · rw [h]; rfl
        · rw [h]; rfl
        · rw [h]; rfl
        · exact hall e h

theorem countP_zero_of_in_loop (p : worker_event → Bool) (body : List worker_event)
    (hall : ∀ e, e ∈ body → e.in_loop = true) (hp : ∀ e, e.in_loop = true → p e = false) :
    body.countP p = 0 := by
  rw [List.countP_eq_zero]
  intro e he hpe
  rw [hp e (hall e he)] at hpe
  exact Bool.noConfusion hpe

/-- C5. Whenever `stop()` eventually returns true (at its call number `n`, with fuel for
that many loop tests) the worker returns and its calls are, in order: `bm_target_reg`,
the start-barrier wait, a block made only of loop-body calls (dispatch, `bm_stat_add_op`,
noise), the stop-barrier wait, `bm_target_dereg`.  So registration happens exactly once and
before the start barrier, every dispatch lies between the two barriers, and deregistration
happens exactly once and after the stop barrier. -/
theorem run_brackets (E : worker_env) (p : bm_params_t) (D : ops_table) (fuel t n : Nat)
    (hstop : E.stop n = true) (hfuel : n < fuel) :
    ∃ body tr, run E p D fuel t = some tr ∧
      tr = worker_event.target_reg t :: worker_event.barrier_wait_start ::
          (body ++ [worker_event.barrier_wait_stop, worker_event.target_dereg t]) ∧
      (∀ e, e ∈ body → e.in_loop = true) ∧
      (∀ op, worker_event.dispatch_operation op ∈ tr →
        worker_event.dispatch_operation op ∈ body) ∧
      tr.countP worker_event.is_reg = 1 ∧
      tr.countP worker_event.is_dereg = 1 ∧
      tr.count worker_event.barrier_wait_start = 1 ∧
      tr.count worker_event.barrier_wait_stop = 1 := by
  obtain ⟨body, hb, hall⟩ := run_loop_body E D p.max_noise t fuel 0
    (start_slot p.num_threads t)
    [worker_event.target_reg t, worker_event.barrier_wait_start]
    ⟨n, Nat.zero_le n, hstop, by omega⟩
  have hreg := countP_zero_of_in_loop worker_event.is_reg body hall
    (by intro e he; cases e <;> first | rfl | exact Bool.noConfusion he)
  have hdereg := countP_zero_of_in_loop worker_event.is_dereg body hall
    (by intro e he; cases e <;> first | rfl | exact Bool.noConfusion he)
  have hstart : body.count worker_event.barrier_wait_start = 0 := by
    rw [List.count_eq_zero]
    intro hmem
    exact Bool.noConfusion (hall _ hmem)
  have hstopc : body.count worker_event.barrier_wait_stop = 0 := by
    rw [List.count_eq_zero]
    intro hmem
    exact Bool.noConfusion (hall _ hmem)
  refine ⟨body, _, ?_, rfl, hall, ?_, ?_, ?_, ?_, ?_⟩
  · unfold run
    simp only
    rw [hb]
    simp
  · intro op h
    simpa using h
  · simp [List.countP_cons, List.countP_append, hreg, worker_event.is_reg]
  · simp [List.countP_cons, List.countP_append, hdereg, worker_event.is_dereg]
  · simp [List.count_cons, List.count_append, hstart]
  · simp [List.count_cons, List.count_append, hstopc]

theorem run_brackets_witness :
    ∃ body tr, run env_three params_D table_D 10 1 = some tr ∧
      tr = worker_event.target_reg 1 :: worker_event.barrier_wait_start ::
          (body ++ [worker_event.barrier_wait_stop, worker_event.target_dereg 1]) ∧
      (∀ e, e ∈ body → e.in_loop = true) ∧
      (∀ op, worker_event.dispatch_operation op ∈ tr →
        worker_event.dispatch_operation op ∈ body) ∧
      tr.countP worker_event.is_reg = 1 ∧
      tr.countP worker_event.is_dereg = 1 ∧
      tr.count worker_event.barrier_wait_start = 1 ∧
      tr.count worker_event.barrier_wait_stop = 1 :=
  run_brackets env_three params_D table_D 10 1 3 (by decide) (by decide)

/-! ## Starting slots of the workers -/

theorem start_slot_lt (T t1 t2 : Nat) (hT : 1 ≤ T) (hT2 : T ≤ DISTRIBUTION_BOUND)
    (h2 : t2 < T) (h : t1 < t2) : start_slot T t1 < start_slot T t2 := by
  have hB : DISTRIBUTION_BOUND = 1024 := rfl
  have hM : SIZE_MOD = 18446744073709551616 := by decide
  unfold start_slot
  rw [Nat.mod_eq_of_lt (by rw [hB, hM]; rw [hB] at hT2; omega),
    Nat.mod_eq_of_lt (by rw [hB, hM]; rw [hB] at hT2; omega)]
  have hT3 : T ≤ 1024 := hT2
  have hq : 1024 * t1 / T * T ≤ 1024 * t1 := Nat.div_mul_le_self _ _
  have hstep : (DISTRIBUTION_BOUND * t1 / T + 1) * T ≤ DISTRIBUTION_BOUND * t2 := by
    show (1024 * t1 / T + 1) * T ≤ 1024 * t2
    rw [Nat.add_mul, Nat.one_mul]
    omega
  exact (Nat.le_div_iff_mul_le (by omega)).mpr hstep

/-- C6 (as stated, refuted). With `T = 2048` threads the distinct workers 0 and 1 both start
at slot 0. -/
theorem start_slot_collision :
    1 ≤ 2048 ∧ 0 < 2048 ∧ 1 < 2048 ∧ (0 : Nat) ≠ 1 ∧ start_slot 2048 0 = start_slot 2048 1 := by
  decide

/-- C6 (amended). For `1 ≤ T ≤ 1024` threads, two distinct worker ids below `T` have
different starting slots `(1024 * t) / T`. -/
theorem start_slot_injective (T t1 t2 : Nat) (hT : 1 ≤ T) (hT2 : T ≤ DISTRIBUTION_BOUND)
    (h1 : t1 < T) (h2 : t2 < T) (hne : t1 ≠ t2) :
    start_slot T t1 ≠ start_slot T t2 ∧
    start_slot T t1 = DISTRIBUTION_BOUND * t1 / T ∧
    start_slot T t2 = DISTRIBUTION_BOUND * t2 / T := by
  have hB : DISTRIBUTION_BOUND = 1024 := rfl
  have hM : SIZE_MOD = 18446744073709551616 := by decide
  refine ⟨?_, ?_, ?_⟩
  · rcases Nat.lt_or_gt_of_ne hne with h | h
    · exact Nat.ne_of_lt (start_slot_lt T t1 t2 hT hT2 h2 h)
    · exact Nat.ne_of_gt (start_slot_lt T t2 t1 hT hT2 h1 h)
  · unfold start_slot
    rw [Nat.mod_eq_of_lt (by rw [hB, hM]; rw [hB] at hT2; omega)]
  · unfold start_slot
    rw [Nat.mod_eq_of_lt (by rw [hB, hM]; rw [hB] at hT2; omega)]

theorem start_slot_injective_witness :
    start_slot 4 1 ≠ start_slot 4 3 ∧
    start_slot 4 1 = DISTRIBUTION_BOUND * 1 / 4 ∧
    start_slot 4 3 = DISTRIBUTION_BOUND * 3 / 4 :=
  start_slot_injective 4 1 3 (by decide) (by decide) (by decide) (by decide) (by decide)

/-- Beyond 1024 threads workers 0 and 1 always share slot 0, so the bound is tight. -/
theorem start_slot_collides_above (T : Nat) (hT : DISTRIBUTION_BOUND < T) :
    start_slot T 0 = start_slot T 1 := by
  have hM : SIZE_MOD = 18446744073709551616 := by decide
  unfold start_slot
  rw [Nat.mul_zero, Nat.mul_one, Nat.zero_mod, Nat.zero_div,
    Nat.mod_eq_of_lt (by rw [hM]; decide), Nat.div_eq_of_lt hT]

/-! ## The timing envelope of `bm_phase_run` -/

theorem log_tsc_reads {σ : Type} (st : state σ) (e : event) :
    (st.log e).tsc_reads = st.tsc_reads := rfl

theorem spawn_threads_tsc_reads {σ : Type} :
    ∀ (n i : Nat) (st : state σ), (spawn_threads n i st).tsc_reads = st.tsc_reads := by
  intro n
  induction n with
  | zero => intro i st; rfl
  | succ n ih => intro i st; exact ih (i + 1) _

theorem sub_u64_of_le {a b : Nat} (hb : b ≤ a) (ha : a < SIZE_MOD) : sub_u64 a b = a - b := by
  unfold sub_u64
  have h : a + SIZE_MOD - b = (a - b) + SIZE_MOD := by omega
  rw [h, Nat.add_mod_right, Nat.mod_eq_of_lt (by omega)]

/-- The samples of `bm_phase_run` are four consecutive reads of the cycle counter. -/
theorem bm_phase_run_samples {σ : Type} (C : clock_t) (st : state σ) :
    (bm_phase_run C st).1.duration_max_start_clk = C.tsc st.tsc_reads % SIZE_MOD ∧
    (bm_phase_run C st).1.duration_min_start_clk = C.tsc (st.tsc_reads + 1) % SIZE_MOD ∧
    (bm_phase_run C st).1.duration_min_stop_clk = C.tsc (st.tsc_reads + 2) % SIZE_MOD ∧
    (bm_phase_run C st).1.duration_max_stop_clk = C.tsc (st.tsc_reads + 3) % SIZE_MOD := by
  refine ⟨?_, ?_, ?_, ?_⟩ <;>
    simp only [bm_phase_run, read_time_stamp_counter, state.log, spawn_threads_tsc_reads]

/-- C7. If successive reads of the (64-bit) cycle counter never decrease, the four samples
of `bm_phase_run` satisfy `max_start ≤ min_start ≤ min_stop ≤ max_stop`; both 64-bit
subtractions are exact (no underflow); and the call of `bm_stat_add_spent_time`, the last
event of the run phase, receives a min-envelope duration that is at most the max-envelope
duration. -/
theorem envelope_ordered {σ : Type} (C : clock_t) (st : state σ)
    (hrange : ∀ n, C.tsc n < SIZE_MOD)
    (hmono : ∀ m n, m ≤ n → C.tsc m ≤ C.tsc n) :
    (bm_phase_run C st).1.duration_max_start_clk ≤ (bm_phase_run C st).1.duration_min_start_clk ∧
    (bm_phase_run C st).1.duration_min_start_clk ≤ (bm_phase_run C st).1.duration_min_stop_clk ∧
    (bm_phase_run C st).1.duration_min_stop_clk ≤ (bm_phase_run C st).1.duration_max_stop_clk ∧
    (bm_phase_run C st).1.duration_min_clk =
      (bm_phase_run C st).1.duration_min_stop_clk - (bm_phase_run C st).1.duration_min_start_clk ∧
    (bm_phase_run C st).1.duration_max_clk =
      (bm_phase_run C st).1.duration_max_stop_clk - (bm_phase_run C st).1.duration_max_start_clk ∧
    (bm_phase_run C st).1.duration_min_clk ≤ (bm_phase_run C st).1.duration_max_clk ∧
    ∃ pre min_ms max_ms, (bm_phase_run C st).2.trace =
      pre ++ [event.stat_add_spent_time (bm_phase_run C st).1.duration_min_clk
        (bm_phase_run C st).1.duration_max_clk min_ms max_ms] := by
  obtain ⟨h1, h2, h3, h4⟩ := bm_phase_run_samples C st
  have e0 := Nat.mod_eq_of_lt (hrange st.tsc_reads)
  have e1 := Nat.mod_eq_of_lt (hrange (st.tsc_reads + 1))
  have e2 := Nat.mod_eq_of_lt (hrange (st.tsc_reads + 2))
  have e3 := Nat.mod_eq_of_lt (hrange (st.tsc_reads + 3))
  have m01 := hmono st.tsc_reads (st.tsc_reads + 1) (by omega)
  have m12 := hmono (st.tsc_reads + 1) (st.tsc_reads + 2) (by omega)
  have m23 := hmono (st.tsc_reads + 2) (st.tsc_reads + 3) (by omega)
  have r2 := hrange (st.tsc_reads + 2)
  have r3 := hrange (st.tsc_reads + 3)
  have dmin : (bm_phase_run C st).1.duration_min_clk =
      sub_u64 (bm_phase_run C st).1.duration_min_stop_clk
        (bm_phase_run C st).1.duration_min_start_clk := rfl
  have dmax : (bm_phase_run C st).1.duration_max_clk =
      sub_u64 (bm_phase_run C st).1.duration_max_stop_clk
        (bm_phase_run C st).1.duration_max_start_clk := rfl
  rw [dmin, dmax, h1, h2, h3, h4, e0, e1, e2, e3]
  rw [sub_u64_of_le m12 r2, sub_u64_of_le (by omega) r3]
  refine ⟨m01, m12, m23, rfl, rfl, by omega, ?_⟩
  rw [← e0, ← e1, ← e2, ← e3, ← h1, ← h2, ← h3, ← h4,
    ← sub_u64_of_le (by rw [h3, h2, e2, e1]; exact m12) (by rw [h3, e2]; exact r2),
    ← sub_u64_of_le (by rw [h4, h1, e3, e0]; omega) (by rw [h4, e3]; exact r3),
    ← dmin, ← dmax]
  exact ⟨_, _, _, rfl⟩

theorem envelope_ordered_witness :
    (bm_phase_run sat_clock (initial_state params_D (0 : Nat))).1.duration_min_clk ≤
      (bm_phase_run sat_clock (initial_state params_D (0 : Nat))).1.duration_max_clk :=
  (envelope_ordered sat_clock (initial_state params_D (0 : Nat))
    (by intro n; show min (100 * n) 1000 < SIZE_MOD
        have hM : SIZE_MOD = 18446744073709551616 := by decide
        rw [hM]; omega)
    (by intro m n h; show min (100 * m) 1000 ≤ min (100 * n) 1000; omega)).2.2.2.2.2.1

/-! ## Statistics accumulator -/

/-- C8. `bm_stat_add_op` with `skip = true` leaves the statistics unchanged; with
`skip = false` it increments the count of cell `(t, o, r)` by 1, adds `x` to its latency
sum, leaves every other cell unchanged, and afterwards the cell's `min ≤ x ≤ max`. -/
theorem stat_add_op_effect (s : bm_stat_t) (t o r x : Nat) :
    bm_stat_add_op s t o r x true = s ∧
    ((bm_stat_add_op s t o r x false).cell t o r).count = (s.cell t o r).count + 1 ∧
    ((bm_stat_add_op s t o r x false).cell t o r).sum = (s.cell t o r).sum + x ∧
    (∀ t1 o1 r1, ¬ (t1 = t ∧ o1 = o ∧ r1 = r) →
      (bm_stat_add_op s t o r x false).cell t1 o1 r1 = s.cell t1 o1 r1) ∧
    ((bm_stat_add_op s t o r x false).cell t o r).min ≤ x ∧
    x ≤ ((bm_stat_add_op s t o r x false).cell t o r).max := by
  have hcell : (bm_stat_add_op s t o r x false).cell t o r =
      ⟨(s.cell t o r).count + 1, (s.cell t o r).sum + x,
        Nat.min (s.cell t o r).min x, Nat.max (s.cell t o r).max x⟩ := by
    simp [bm_stat_add_op]
  refine ⟨rfl, ?_, ?_, ?_, ?_, ?_⟩
  · rw [hcell]
  · rw [hcell]
  · intro t1 o1 r1 h
    simp [bm_stat_add_op, h]
  · rw [hcell]; exact Nat.min_le_right _ _
  · rw [hcell]; exact Nat.le_max_right _ _

theorem stat_add_op_effect_witness :
    (bm_stat_add_op stats_one 0 1 2 70 false).cell 3 1 2 = stats_one.cell 3 1 2 ∧
    ((bm_stat_add_op stats_one 0 1 2 70 false).cell 0 1 2).count = 2 :=
  ⟨(stat_add_op_effect stats_one 0 1 2 70).2.2.2.1 3 1 2 (by decide),
   (stat_add_op_effect stats_one 0 1 2 70).2.1⟩

/-! ## Determinism of warmup -/

theorem agree_fuel_right {σ : Type} (o : outcome σ) : agree o .out_of_fuel := by
  cases o <;> exact True.intro

theorem agree_fuel_left {σ : Type} (o : outcome σ) : agree .out_of_fuel o := by
  cases o <;> exact True.intro

theorem same_core_rng {σ : Type} {a b : state σ} (h : same_core a b) (s : σ) :
    same_core ({ a with rng := s } : state σ) ({ b with rng := s } : state σ) :=
  ⟨h.1, h.2.1, rfl⟩

theorem agree_andThen {σ : Type} {o1 o2 : outcome σ} {k1 k2 : state σ → outcome σ}
    (h : agree o1 o2) (hk : ∀ a b, same_core a b → agree (k1 a) (k2 b)) :
    agree (o1.andThen k1) (o2.andThen k2) := by
  cases o1 with
  | ok a =>
    cases o2 with
    | ok b => exact hk a b h
    | assert_failed l s => exact False.elim h
    | out_of_bounds s => exact False.elim h
    | out_of_fuel => exact agree_fuel_right _
  | assert_failed l s =>
    cases o2 with
    | ok b => exact False.elim h
    | assert_failed m t => exact h
    | out_of_bounds t => exact False.elim h
    | out_of_fuel => exact True.intro
  | out_of_bounds s =>
    cases o2 with
    | ok b => exact False.elim h
    | assert_failed m t => exact False.elim h
    | out_of_bounds t => exact True.intro
    | out_of_fuel => exact True.intro
  | out_of_fuel => exact agree_fuel_left _

theorem same_core_set_op {σ : Type} {a b : state σ} (h : same_core a b) (pos v : Nat) :
    same_core (a.set_op pos v) (b.set_op pos v) := by
  obtain ⟨h1, h2, h3⟩ := h
  refine ⟨h1, ?_, h3⟩
  show a.g_ops.slots.set pos v = b.g_ops.slots.set pos v
  rw [h2]

theorem find_slot_agree {σ : Type} (R : random_t σ) (i : Nat) :
    ∀ (f1 f2 : Nat) (a b : state σ), same_core a b →
      agree (find_slot R i f1 a) (find_slot R i f2 b) := by
  intro f1
  induction f1 with
  | zero => intro f2 a b _; exact agree_fuel_left _
  | succ n ih =>
    intro f2 a b h
    cases f2 with
    | zero => exact agree_fuel_right _
    | succ m =>
      obtain ⟨h1, h2, h3⟩ := h
      unfold find_slot
      simp only
      rw [h3]
      have hread : ∀ (s : σ) (pos : Nat),
          ({ a with rng := s } : state σ).g_ops.read pos =
          ({ b with rng := s } : state σ).g_ops.read pos := by
        intro s pos
        show a.g_ops.slots.getD pos 0 = b.g_ops.slots.getD pos 0
        rw [h2]
      by_cases hlt : (R.random_next_int b.rng 0 (DISTRIBUTION_BOUND - 1)).1 < DISTRIBUTION_BOUND
      · rw [if_pos hlt, if_pos hlt, hread]
        by_cases hS : ({ b with rng := (R.random_next_int b.rng 0
            (DISTRIBUTION_BOUND - 1)).2 } : state σ).g_ops.read
            (R.random_next_int b.rng 0 (DISTRIBUTION_BOUND - 1)).1 = UINT32_MAX
        · rw [if_pos hS, if_pos hS]
          exact same_core_set_op (same_core_rng ⟨h1, h2, h3⟩ _) _ _
        · rw [if_neg hS, if_neg hS]
          exact ih m _ _ (same_core_rng ⟨h1, h2, h3⟩ _)
      · rw [if_neg hlt, if_neg hlt]
        exact True.intro

theorem fill_op_agree {σ : Type} (R : random_t σ) (i f1 f2 : Nat) :
    ∀ (n : Nat) (a b : state σ), same_core a b →
      agree (fill_op R f1 i n a) (fill_op R f2 i n b) := by
  intro n
  induction n with
  | zero => intro a b h; exact h
  | succ n ih =>
    intro a b h
    unfold fill_op
    exact agree_andThen (find_slot_agree R i f1 f2 a b h) ih

theorem fill_ops_agree {σ : Type} (R : random_t σ) (f1 f2 : Nat) :
    ∀ (ws : List Nat) (i : Nat) (a b : state σ), same_core a b →
      agree (fill_ops R f1 i ws a) (fill_ops R f2 i ws b) := by
  intro ws
  induction ws with
  | nil => intro i a b h; exact h
  | cons w ws ih =>
    intro i a b h
    unfold fill_ops
    exact agree_andThen (fill_op_agree R i f1 f2 w a b h) (ih (i + 1))

theorem check_ops_agree {σ : Type} (a b : state σ) (h : same_core a b) :
    agree (check_ops a) (check_ops b) := by
  obtain ⟨h1, h2, h3⟩ := h
  unfold check_ops bm_params_t.op_dist_len
  rw [h1, h2]
  split
  · exact ⟨h1, h2, h3⟩
  · rfl

theorem warmup_agree {σ : Type} (R : random_t σ) (f1 f2 : Nat) (a b : state σ)
    (hW : a.g_params.op_dist = b.g_params.op_dist) :
    agree (bm_phase_warmup R f1 a) (bm_phase_warmup R f2 b) := by
  unfold bm_phase_warmup
  simp only
  rw [hW]
  by_cases hsum : weights_total b.g_params.op_dist = DISTRIBUTION_BOUND
  · rw [if_pos hsum, if_pos hsum]
    refine agree_andThen (fill_ops_agree R f1 f2 _ 0 _ _ ?_) check_ops_agree
    refine ⟨?_, ?_, ?_⟩
    · rw [(clear_ops_fields _ _ _).1, (clear_ops_fields _ _ _).1]; exact hW
    · rw [clear_ops_all, clear_ops_all]
    · rw [(clear_ops_fields _ _ _).2.2, (clear_ops_fields _ _ _).2.2]
  · rw [if_neg hsum, if_neg hsum]
    rfl

/-- C9. Two executions of `bm_phase_warmup` with identical weight vectors that both return
produce identical tables, whatever the globals (old table contents, generator state, stop
flag, trace) held before and however long the rejection loops were allowed to run: the
generator is re-seeded with 0 on entry, so the table is a function of the weights and the
generator alone. -/
theorem warmup_deterministic {σ : Type} (R : random_t σ) (f1 f2 : Nat) (a b : state σ)
    (D1 D2 : List Nat)
    (hW : a.g_params.op_dist = b.g_params.op_dist)
    (h1 : (bm_phase_warmup R f1 a).table = some D1)
    (h2 : (bm_phase_warmup R f2 b).table = some D2) :
    D1 = D2 ∧
    bm_phase_warmup R f1 a = bm_phase_warmup R f1 { a with rng := R.random_init_seed 0 } := by
  refine ⟨?_, rfl⟩
  have h := warmup_agree R f1 f2 a b hW
  cases ha : bm_phase_warmup R f1 a with
  | ok sa =>
    cases hb : bm_phase_warmup R f2 b with
    | ok sb =>
      rw [ha, hb] at h
      rw [ha] at h1
      rw [hb] at h2
      have e1 : sa.g_ops.slots = D1 := by simpa [outcome.table] using h1
      have e2 : sb.g_ops.slots = D2 := by simpa [outcome.table] using h2
      rw [← e1, ← e2]
      exact h.2.1
    | out_of_fuel => rw [hb] at h2; simp [outcome.table] at h2
    | assert_failed l s => rw [hb] at h2; simp [outcome.table] at h2
    | out_of_bounds s => rw [hb] at h2; simp [outcome.table] at h2
  | out_of_fuel => rw [ha] at h1; simp [outcome.table] at h1
  | assert_failed l s => rw [ha] at h1; simp [outcome.table] at h1
  | out_of_bounds s => rw [ha] at h1; simp [outcome.table] at h1

theorem warmup_deterministic_witness :
    expand 0 (initial_state params_D (5 : Nat)).g_params.op_dist =
      expand 0 scrambled_state.g_params.op_dist :=
  (warmup_deterministic counter_rng 1 3 (initial_state params_D 5) scrambled_state
    (expand 0 (initial_state params_D (5 : Nat)).g_params.op_dist)
    (expand 0 scrambled_state.g_params.op_dist) rfl
    (counter_warmup_table 0 (initial_state params_D 5) params_D_sum)
    (counter_warmup_table 2 scrambled_state (by decide))).1

/-! ## The stop flag -/

theorem worker_step_stop (h : harness) (tid : Nat) : (worker_step h tid).g_stop = h.g_stop := by
  unfold worker_step
  split <;> rfl

theorem driver_step_stop (T : Nat) (h : harness) :
    ((driver_step T h).g_stop = h.g_stop ∧ h.driver ≠ driver_pc.signal_stop) ∨
    (h.driver = driver_pc.signal_stop ∧ (driver_step T h).g_stop = true) := by
  unfold driver_step
  split
  · rename_i i hd
    left
    refine ⟨?_, by rw [hd]; exact fun h => driver_pc.noConfusion h⟩
    split <;> rfl
  all_goals first
    | (rename_i hd; right; exact ⟨hd, rfl⟩)
    | (rename_i hd; left; exact ⟨rfl, by rw [hd]; exact fun h => driver_pc.noConfusion h⟩)

theorem driver_step_results (T : Nat) (h : harness) :
    (driver_step T h).stop_results = h.stop_results := by
  unfold driver_step
  split
  · split <;> rfl
  all_goals rfl

theorem step_keeps_true (T : Nat) (h : harness) (who : Option Nat) (ht : h.g_stop = true) :
    (harness_step T h who).g_stop = true := by
  cases who with
  | none =>
    show (driver_step T h).g_stop = true
    rcases driver_step_stop T h with ⟨h1, _⟩ | ⟨_, h1⟩
    · rw [h1]; exact ht
    · exact h1
  | some tid =>
    show (worker_step h tid).g_stop = true
    rw [worker_step_stop]; exact ht

theorem exec_keeps_true (T : Nat) (sched : List (Option Nat)) :
    ∀ h : harness, h.g_stop = true → (exec T sched h).g_stop = true := by
  induction sched with
  | nil => intro h ht; exact ht
  | cons who rest ih =>
    intro h ht
    exact ih _ (step_keeps_true T h who ht)

theorem step_inv (T : Nat) (h : harness) (who : Option Nat) (hinv : stop_inv h) :
    stop_inv (harness_step T h who) := by
  obtain ⟨hp, hg⟩ := hinv
  cases who with
  | none =>
    show stop_inv (driver_step T h)
    refine ⟨by rw [driver_step_results]; exact hp, ?_⟩
    intro p hmem htrue
    rw [driver_step_results] at hmem
    exact step_keeps_true T h none (hg p hmem htrue)
  | some tid =>
    show stop_inv (worker_step h tid)
    unfold worker_step
    split
    case h_4 =>
      refine ⟨?_, ?_⟩
      · show List.Pairwise _ (h.stop_results ++ [(tid, h.g_stop)])
        rw [List.pairwise_append]
        refine ⟨hp, List.pairwise_singleton _ _, ?_⟩
        intro a ha b hb htrue
        rw [List.mem_singleton] at hb
        rw [hb]
        exact hg a ha htrue
      · intro p hmem htrue
        show h.g_stop = true
        have hmem2 : p ∈ h.stop_results ++ [(tid, h.g_stop)] := hmem
        rw [List.mem_append, List.mem_singleton] at hmem2
        rcases hmem2 with h1 | h1
        · exact hg p h1 htrue
        · rw [h1] at htrue; exact htrue
    all_goals exact ⟨hp, hg⟩

theorem exec_inv (T : Nat) (sched : List (Option Nat)) :
    ∀ h : harness, stop_inv h → stop_inv (exec T sched h) := by
  induction sched with
  | nil => intro h hinv; exact hinv
  | cons who rest ih =>
    intro h hinv
    exact ih _ (step_inv T h who hinv)

/-- C10. The stop flag is monotone.  It is false at program start; no statement of a worker
changes it; the only driver statement that changes it is the store of line 237, which
stores true; hence along every schedule, once the flag is true it stays true, and in the
sequence of values returned by `stop()` no false follows a true. -/
theorem stop_flag_monotone (T : Nat) (s1 s2 : List (Option Nat)) :
    harness_init.g_stop = false ∧
    (∀ h tid, (worker_step h tid).g_stop = h.g_stop) ∧
    (∀ h, ((driver_step T h).g_stop = h.g_stop ∧ h.driver ≠ driver_pc.signal_stop) ∨
      (h.driver = driver_pc.signal_stop ∧ (driver_step T h).g_stop = true)) ∧
    ((exec T s1 harness_init).g_stop = true →
      (exec T (s1 ++ s2) harness_init).g_stop = true) ∧
    List.Pairwise (fun a b : Nat × Bool => a.2 = true → b.2 = true)
      (exec T (s1 ++ s2) harness_init).stop_results := by
  refine ⟨rfl, worker_step_stop, driver_step_stop T, ?_, ?_⟩
  · intro ht
    have hsplit : exec T (s1 ++ s2) harness_init = exec T s2 (exec T s1 harness_init) := by
      unfold exec; rw [List.foldl_append]
    rw [hsplit]
    exact exec_keeps_true T s2 _ ht
  · have hinit : stop_inv harness_init := ⟨List.Pairwise.nil, fun p hp => by cases hp⟩
    exact (exec_inv T (s1 ++ s2) harness_init hinit).1

theorem stop_flag_monotone_witness :
    (exec 1 (List.replicate 7 none ++ [some 0, some 0, some 0]) harness_init).g_stop = true :=
  (stop_flag_monotone 1 (List.replicate 7 none) [some 0, some 0, some 0]).2.2.2.1 (by decide)

/-! ## `strtoul` on decimal text -/

theorem digit_not_space {c : Char} (h : is_digit c = true) : is_space c = false := by
  simp only [is_digit, is_space, Bool.and_eq_true, Bool.or_eq_false_iff,
    Bool.and_eq_false_iff, decide_eq_true_eq, decide_eq_false_iff_not] at *
  omega

theorem digit_ne {c d : Char} (h : is_digit c = true) (hd : is_digit d = false) : c ≠ d := by
  intro hcd
  rw [hcd, hd] at h
  exact Bool.noConfusion h

theorem takeWhile_digit_stop (rest : List Char) (h : is_digit (peek rest) = false) :
    rest.takeWhile is_digit = [] ∧ rest.dropWhile is_digit = rest := by
  cases rest with
  | nil => exact ⟨rfl, rfl⟩
  | cons x xs =>
    have hx : ¬ (is_digit x = true) := by
      intro hx
      have : is_digit x = false := h
      rw [this] at hx
      exact Bool.noConfusion hx
    exact ⟨List.takeWhile_cons_of_neg hx, List.dropWhile_cons_of_neg hx⟩

/-- On a non-empty run of digits followed by a non-digit, `strtoul` returns the (clamped)
value of the run and leaves `next` on what follows. -/
theorem strtoul_digits (ds rest : List Char) (hds : is_integer ds)
    (hrest : is_digit (peek rest) = false) :
    strtoul (ds ++ rest) = (clamp_ulong (digits_value ds), rest) := by
  obtain ⟨hne, hall⟩ := hds
  obtain ⟨c, cs, rfl⟩ : ∃ c cs, ds = c :: cs := by
    cases ds with
    | nil => exact (hne rfl).elim
    | cons c cs => exact ⟨c, cs, rfl⟩
  have hc : is_digit c = true := hall c (List.mem_cons_self c cs)
  have hsp : ¬ (is_space c = true) := by rw [digit_not_space hc]; exact Bool.noConfusion
  have hstop := takeWhile_digit_stop rest hrest
  have hminus : c ≠ '-' := digit_ne hc (by decide)
  have hplus : c ≠ '+' := digit_ne hc (by decide)
  have hdrop : (c :: cs ++ rest).dropWhile is_space = c :: cs ++ rest :=
    List.dropWhile_cons_of_neg hsp
  have hpeek : peek (c :: cs ++ rest) = c := rfl
  have htake : (c :: cs ++ rest).takeWhile is_digit = c :: cs := by
    have := @List.takeWhile_append_of_pos Char is_digit (c :: cs) rest hall
    rw [this, hstop.1, List.append_nil]
  have hdropd : (c :: cs ++ rest).dropWhile is_digit = rest := by
    have := @List.dropWhile_append_of_pos Char is_digit (c :: cs) rest hall
    rw [this, hstop.2]
  unfold strtoul
  simp only [hdrop, hpeek, hminus, hplus, or_self, if_false, htake, hdropd, List.isEmpty_cons,
    decide_False, Bool.false_eq_true]
  rfl

/-! ## `parse_ops` on sentences of the grammar -/

theorem letter_cases (s : step_text) :
    (s.letter = 'r' ∨ s.letter = 'w') ∧ decide (s.letter = 'w') = s.is_write ∧
    is_digit s.letter = false := by
  unfold step_text.letter
  cases s.is_write <;> decide

theorem parse_loop_succ (rem i : Nat) (str : List Char) (ops : Nat → extracted_op) :
    parse_loop (rem + 1) i str ops =
      if peek str = Char.ofNat 0 then ((i : Int), ops)
      else
        if peek (strtoul str).2 = 'r' ∨ peek (strtoul str).2 = 'w' then
          if peek (strtoul (strtoul str).2.tail).2 = Char.ofNat 0 then
            parse_loop rem (i + 1) (strtoul (strtoul str).2.tail).2
              (Function.update ops i
                ⟨(strtoul str).1, (strtoul (strtoul str).2.tail).1,
                  decide (peek (strtoul str).2 = 'w')⟩)
          else if peek (strtoul (strtoul str).2.tail).2 = '-' then
            parse_loop rem (i + 1) (strtoul (strtoul str).2.tail).2.tail
              (Function.update ops i
                ⟨(strtoul str).1, (strtoul (strtoul str).2.tail).1,
                  decide (peek (strtoul str).2 = 'w')⟩)
          else (-2, ops)
        else (-1, ops) := by
  rw [parse_loop]

/-- One iteration of the loop on a well-formed step followed by the end of the text or by
a separator. -/
theorem parse_step (rem i : Nat) (ops : Nat → extracted_op) (s : step_text) (tail : List Char)
    (hwf : s.wf) (htail : tail = [] ∨ ∃ more, tail = '-' :: more) :
    parse_loop (rem + 1) i (s.n_digits ++ s.letter :: (s.sz_digits ++ tail)) ops =
      parse_loop rem (i + 1) tail.tail (Function.update ops i s.entry) := by
  obtain ⟨hn, hsz⟩ := hwf
  obtain ⟨hl1, hl2, hl3⟩ := letter_cases s
  have hhead : peek (s.n_digits ++ s.letter :: (s.sz_digits ++ tail)) ≠ Char.ofNat 0 := by
    obtain ⟨hne, hall⟩ := hn
    cases hd : s.n_digits with
    | nil => exact (hne hd).elim
    | cons c cs =>
      have hc : is_digit c = true := hall c (by rw [hd]; exact List.mem_cons_self c cs)
      exact digit_ne hc (by decide)
  have h1 : strtoul (s.n_digits ++ s.letter :: (s.sz_digits ++ tail)) =
      (clamp_ulong (digits_value s.n_digits), s.letter :: (s.sz_digits ++ tail)) :=
    strtoul_digits _ _ hn hl3
  have htd : is_digit (peek tail) = false := by
    rcases htail with h | ⟨more, h⟩
    · rw [h]; decide
    · rw [h]; show is_digit '-' = false; decide
  have h2 : strtoul (s.sz_digits ++ tail) =
      (clamp_ulong (digits_value s.sz_digits), tail) :=
    strtoul_digits _ _ hsz htd
  have hpk : peek (s.letter :: (s.sz_digits ++ tail)) = s.letter := rfl
  rw [parse_loop_succ, if_neg hhead]
  simp only [h1, hpk, List.tail_cons, h2, hl2]
  rw [if_pos hl1]
  rcases htail with h | ⟨more, h⟩
  · subst h
    rw [if_pos (show peek ([] : List Char) = Char.ofNat 0 from rfl)]
    rfl
  · subst h
    have hp : peek ('-' :: more) = '-' := rfl
    rw [hp, if_neg (show ¬ (('-' : Char) = Char.ofNat 0) by decide), if_pos rfl]
    rfl

theorem parse_loop_nil (rem i : Nat) (ops : Nat → extracted_op) :
    parse_loop rem i [] ops = ((i : Int), ops) := by
  cases rem with
  | zero => rfl
  | succ r =>
    rw [parse_loop_succ, if_pos (show peek ([] : List Char) = Char.ofNat 0 from rfl)]

/-- On the text of well-formed steps the loop stores one entry per step, in order, until
the text or the capacity is used up. -/
theorem parse_loop_render :
    ∀ (steps : List step_text) (rem i : Nat) (ops : Nat → extracted_op),
      (∀ s, s ∈ steps → s.wf) →
      parse_loop rem i (render_steps steps) ops =
        (((i + min steps.length rem : Nat) : Int), store_steps i (steps.take rem) ops) := by
  intro steps
  induction steps with
  | nil =>
    intro rem i ops _
    rw [show render_steps [] = [] from rfl, parse_loop_nil]
    simp [store_steps]
  | cons s t ih =>
    intro rem i ops hwf
    cases rem with
    | zero => simp [parse_loop, store_steps]
    | succ r =>
      have hs : s.wf := hwf s (List.mem_cons_self s t)
      have ht : ∀ x, x ∈ t → x.wf := fun x hx => hwf x (List.mem_cons_of_mem s hx)
      have hidx : i + min (s :: t).length (r + 1) = i + 1 + min t.length r := by
        simp only [List.length_cons]; omega
      rw [hidx]
      cases t with
      | nil =>
        have hr : render_steps [s] = s.n_digits ++ s.letter :: (s.sz_digits ++ []) := by
          simp [render_steps, step_text.render]
        rw [hr, parse_step r i ops s [] hs (Or.inl rfl)]
        have := ih r (i + 1) (Function.update ops i s.entry) ht
        rw [show render_steps [] = [] from rfl] at this
        rw [show ([] : List Char).tail = [] from rfl, this]
        simp [store_steps]
      | cons t1 t2 =>
        have hr : render_steps (s :: t1 :: t2) =
            s.n_digits ++ s.letter :: (s.sz_digits ++ '-' :: render_steps (t1 :: t2)) := by
          simp [render_steps, step_text.render]
        rw [hr, parse_step r i ops s _ hs (Or.inr ⟨_, rfl⟩), List.tail_cons,
          ih r (i + 1) (Function.update ops i s.entry) ht]
        simp [store_steps]

theorem store_steps_outside :
    ∀ (steps : List step_text) (i : Nat) (ops : Nat → extracted_op) (j : Nat),
      j < i ∨ i + steps.length ≤ j → store_steps i steps ops j = ops j := by
  intro steps
  induction steps with
  | nil => intro i ops j _; rfl
  | cons s rest ih =>
    intro i ops j h
    simp only [List.length_cons] at h
    show store_steps (i + 1) rest (Function.update ops i s.entry) j = ops j
    rw [ih (i + 1) _ j (by omega), Function.update_noteq (by omega)]

theorem store_steps_inside :
    ∀ (steps : List step_text) (i : Nat) (ops : Nat → extracted_op) (k : Nat) (s : step_text),
      steps[k]? = some s → store_steps i steps ops (i + k) = s.entry := by
  intro steps
  induction steps with
  | nil => intro i ops k s h; simp at h
  | cons s0 rest ih =>
    intro i ops k s h
    show store_steps (i + 1) rest (Function.update ops i s0.entry) (i + k) = s.entry
    cases k with
    | zero =>
      simp only [List.getElem?_cons_zero, Option.some.injEq] at h
      show store_steps (i + 1) rest (Function.update ops i s0.entry) i = s.entry
      rw [store_steps_outside rest (i + 1) _ i (Or.inl (by omega)),
        Function.update_same, h]
    | succ k1 =>
      simp only [List.getElem?_cons_succ] at h
      rw [show i + (k1 + 1) = i + 1 + k1 by omega]
      exact ih (i + 1) _ k1 s h

theorem clamp_of_fit {v : Nat} (h : v ≤ ULONG_MAX) : clamp_ulong v = v := by
  unfold clamp_ulong
  rw [if_neg (by omega)]

/-- C11. For an input made of steps joined by `-`, each step a decimal integer `n`, the
letter `r` or `w`, and a decimal integer `sz`, both fitting in `unsigned long`, `parse_ops`
with capacity `nops` returns `min(k, nops)`, stores in `ops[j]` the triple
`(n_j, sz_j, letter_j is w)` for every `j < min(k, nops)` in input order, and leaves every
entry from index `min(k, nops)` on (so every entry at `nops` or beyond) as it was. -/
theorem parse_ops_grammar (steps : List step_text) (ops : Nat → extracted_op) (nops : Nat)
    (hwf : ∀ s, s ∈ steps → s.wf)
    (hfit : ∀ s, s ∈ steps →
      digits_value s.n_digits ≤ ULONG_MAX ∧ digits_value s.sz_digits ≤ ULONG_MAX) :
    (parse_ops (render_steps steps) ops nops).1 = ((min steps.length nops : Nat) : Int) ∧
    (∀ j s, j < nops → steps[j]? = some s →
      (parse_ops (render_steps steps) ops nops).2 j =
        ⟨digits_value s.n_digits, digits_value s.sz_digits, s.is_write⟩) ∧
    (∀ j, min steps.length nops ≤ j →
      (parse_ops (render_steps steps) ops nops).2 j = ops j) := by
  have h := parse_loop_render steps nops 0 ops hwf
  unfold parse_ops
  rw [h]
  refine ⟨by simp, ?_, ?_⟩
  · intro j s hj hs
    have hmem : s ∈ steps := List.getElem?_mem hs
    have hs2 : (steps.take nops)[j]? = some s := by
      rw [List.getElem?_take_of_lt hj]; exact hs
    have := store_steps_inside (steps.take nops) 0 ops j s hs2
    rw [Nat.zero_add] at this
    show store_steps 0 (steps.take nops) ops j = _
    rw [this]
    unfold step_text.entry
    rw [clamp_of_fit (hfit s hmem).1, clamp_of_fit (hfit s hmem).2]
  · intro j hj
    show store_steps 0 (steps.take nops) ops j = ops j
    apply store_steps_outside
    right
    rw [List.length_take]
    omega

theorem usage_steps_wf : ∀ s, s ∈ usage_steps → s.wf := by
  intro s hs
  simp only [usage_steps, List.mem_cons, List.mem_singleton, List.not_mem_nil, or_false] at hs
  rcases hs with h | h <;> subst h <;>
    exact ⟨⟨by decide, by decide⟩, ⟨by decide, by decide⟩⟩

theorem parse_ops_grammar_witness :
    render_steps usage_steps = ("2r1024-1w32").toList ∧
    (parse_ops (render_steps usage_steps) eops_init 128).1 = 2 ∧
    (parse_ops (render_steps usage_steps) eops_init 128).2 0 = ⟨2, 1024, false⟩ ∧
    (parse_ops (render_steps usage_steps) eops_init 128).2 1 = ⟨1, 32, true⟩ ∧
    (parse_ops (render_steps usage_steps) eops_init 128).2 128 = eops_init 128 :=
  have h := parse_ops_grammar usage_steps eops_init 128 usage_steps_wf
    (by
      intro s hs
      simp only [usage_steps, List.mem_cons, List.mem_singleton, List.not_mem_nil,
        or_false] at hs
      rcases hs with h | h <;> subst h <;> exact ⟨by decide, by decide⟩)
  ⟨by decide, h.1, h.2.1 0 _ (by decide) rfl, h.2.1 1 _ (by decide) rfl,
    h.2.2 128 (by decide)⟩

/-! ## What `parse_ops` rejects -/

theorem parse_loop_range :
    ∀ (rem i : Nat) (str : List Char) (ops : Nat → extracted_op),
      (parse_loop rem i str ops).1 = -1 ∨ (parse_loop rem i str ops).1 = -2 ∨
      ((i : Int) ≤ (parse_loop rem i str ops).1 ∧
        (parse_loop rem i str ops).1 ≤ ((i + rem : Nat) : Int)) := by
  intro rem
  induction rem with
  | zero =>
    intro i str ops
    right; right
    simp [parse_loop]
  | succ r ih =>
    intro i str ops
    rw [parse_loop_succ]
    split
    · right; right
      simp only [Nat.cast_add, Nat.cast_one]
      omega
    · split
      · split
        · rcases ih (i + 1) _ _ with h | h | ⟨h1, h2⟩
          · exact Or.inl h
          · exact Or.inr (Or.inl h)
          · right; right
            simp only [Nat.cast_add, Nat.cast_one] at h1 h2 ⊢
            omega
        · split
          · rcases ih (i + 1) _ _ with h | h | ⟨h1, h2⟩
            · exact Or.inl h
            · exact Or.inr (Or.inl h)
            · right; right
              simp only [Nat.cast_add, Nat.cast_one] at h1 h2 ⊢
              omega
          · exact Or.inr (Or.inl rfl)
      · exact Or.inl rfl

theorem integer_head_digit {ds : List Char} (h : is_integer ds) (rest : List Char) :
    is_digit (peek (ds ++ rest)) = true := by
  obtain ⟨hne, hall⟩ := h
  cases ds with
  | nil => exact (hne rfl).elim
  | cons c cs => exact hall c (List.mem_cons_self c cs)

theorem integer_last_digit {ds : List Char} (h : is_integer ds) :
    ∃ c, ds.getLast? = some c ∧ is_digit c = true := by
  obtain ⟨hne, hall⟩ := h
  exact ⟨ds.getLast hne, List.getLast?_eq_getLast ds hne, hall _ (List.getLast_mem hne)⟩

/-- A sentence of the grammar starts with a digit. -/
theorem grammar_head_digit {input : List Char} (h : in_grammar input) :
    is_digit (peek input) = true := by
  obtain ⟨steps, hne, hwf, rfl⟩ := h
  cases steps with
  | nil => exact (hne rfl).elim
  | cons s t =>
    have hs := (hwf s (List.mem_cons_self s t)).1
    cases t with
    | nil =>
      show is_digit (peek (s.n_digits ++ s.letter :: s.sz_digits)) = true
      exact integer_head_digit hs _
    | cons t1 t2 =>
      show is_digit (peek (s.n_digits ++ s.letter :: s.sz_digits ++
        '-' :: render_steps (t1 :: t2))) = true
      rw [List.append_assoc]
      exact integer_head_digit hs _

theorem render_last_digit :
    ∀ (steps : List step_text), steps ≠ [] → (∀ s, s ∈ steps → s.wf) →
      ∃ c, (render_steps steps).getLast? = some c ∧ is_digit c = true := by
  intro steps
  induction steps with
  | nil => intro h; exact (h rfl).elim
  | cons s t ih =>
    intro _ hwf
    cases t with
    | nil =>
      obtain ⟨c, hc, hd⟩ := integer_last_digit (hwf s (List.mem_cons_self s _)).2
      refine ⟨c, ?_, hd⟩
      show (s.n_digits ++ s.letter :: s.sz_digits).getLast? = some c
      rw [List.getLast?_append, List.getLast?_cons, hc]
      rfl
    | cons t1 t2 =>
      obtain ⟨c, hc, hd⟩ := ih (List.cons_ne_nil t1 t2)
        (fun x hx => hwf x (List.mem_cons_of_mem s hx))
      refine ⟨c, ?_, hd⟩
      show (s.render ++ '-' :: render_steps (t1 :: t2)).getLast? = some c
      rw [List.getLast?_append, List.getLast?_cons, hc]
      rfl

/-- A sentence of the grammar ends with a digit. -/
theorem grammar_last_digit {input : List Char} (h : in_grammar input) :
    ∃ c, input.getLast? = some c ∧ is_digit c = true := by
  obtain ⟨steps, hne, hwf, rfl⟩ := h
  exact render_last_digit steps hne hwf

theorem grammar_accepted {input : List Char} (h : in_grammar input)
    (ops : Nat → extracted_op) (nops : Nat) : 0 ≤ (parse_ops input ops nops).1 := by
  obtain ⟨steps, _, hwf, rfl⟩ := h
  unfold parse_ops
  rw [parse_loop_render steps nops 0 ops hwf]
  exact Int.natCast_nonneg _

/-- C12 (as stated, refuted). `parse_ops` returns a non-negative count on inputs outside the
grammar: the empty string (count 0), `r` with both numbers missing (count 1, entry
`(0, read, 0)`), `2r5-` with a trailing separator (count 1), and, with capacity 1, `1r1-x`
whose text after the first step is never read (count 1). -/
theorem parse_ops_accepts_non_grammar :
    (¬ in_grammar [] ∧ (parse_ops [] eops_init 128).1 = 0) ∧
    (¬ in_grammar ("r").toList ∧ (parse_ops ("r").toList eops_init 128).1 = 1 ∧
      (parse_ops ("r").toList eops_init 128).2 0 = ⟨0, 0, false⟩) ∧
    (¬ in_grammar ("2r5-").toList ∧ (parse_ops ("2r5-").toList eops_init 128).1 = 1) ∧
    (¬ in_grammar ("1r1-x").toList ∧ (parse_ops ("1r1-x").toList eops_init 1).1 = 1) := by
  refine ⟨⟨?_, by decide⟩, ⟨?_, by decide, by decide⟩, ⟨?_, by decide⟩, ⟨?_, by decide⟩⟩
  · intro h
    have := grammar_head_digit h
    revert this
    decide
  · intro h
    have := grammar_head_digit h
    revert this
    decide
  · intro h
    obtain ⟨c, hc, hd⟩ := grammar_last_digit h
    have hlast : (("2r5-").toList).getLast? = some '-' := by decide
    rw [hlast] at hc
    cases hc
    revert hd
    decide
  · intro h
    obtain ⟨c, hc, hd⟩ := grammar_last_digit h
    have hlast : (("1r1-x").toList).getLast? = some 'x' := by decide
    rw [hlast] at hc
    cases hc
    revert hd
    decide

/-- C12 (amended). For every input and capacity, `parse_ops` returns -1, -2 or a count
between 0 and `nops`.  An iteration returns -1 when the character after the leading number
is neither `r` nor `w`, and -2 when the character after the size is neither `-` nor the end
of the string.  Every sentence of the grammar yields a non-negative count, so a negative
value is returned only for inputs outside the grammar; `main` reports exactly the negative
values as a failure to parse the operation sequence. -/
theorem parse_ops_rejects (input : List Char) (ops : Nat → extracted_op) (nops : Nat) :
    ((parse_ops input ops nops).1 = -1 ∨ (parse_ops input ops nops).1 = -2 ∨
      (0 ≤ (parse_ops input ops nops).1 ∧ (parse_ops input ops nops).1 ≤ (nops : Int))) ∧
    ((parse_ops input ops nops).1 < 0 → ¬ in_grammar input) ∧
    (∀ (rem i : Nat) (str : List Char) (a : Nat → extracted_op),
      peek str ≠ Char.ofNat 0 →
      ¬ (peek (strtoul str).2 = 'r' ∨ peek (strtoul str).2 = 'w') →
      parse_loop (rem + 1) i str a = (-1, a)) ∧
    (∀ (rem i : Nat) (str : List Char) (a : Nat → extracted_op),
      peek str ≠ Char.ofNat 0 →
      (peek (strtoul str).2 = 'r' ∨ peek (strtoul str).2 = 'w') →
      peek (strtoul (strtoul str).2.tail).2 ≠ Char.ofNat 0 →
      peek (strtoul (strtoul str).2.tail).2 ≠ '-' →
      parse_loop (rem + 1) i str a = (-2, a)) ∧
    ((parse_ops input eops_init 128).1 < 0 ↔
      bench_server.main (some input) = bench_server.startup.parse_failure) := by
  refine ⟨?_, ?_, ?_, ?_, ?_⟩
  · have h := parse_loop_range nops 0 input ops
    unfold parse_ops
    rcases h with h | h | ⟨h1, h2⟩
    · exact Or.inl h
    · exact Or.inr (Or.inl h)
    · right; right
      simp only [Nat.zero_add, Nat.cast_zero] at h1 h2
      exact ⟨h1, h2⟩
  · intro hneg hg
    have := grammar_accepted hg ops nops
    omega
  · intro rem i str a h0 hrw
    rw [parse_loop_succ, if_neg h0, if_neg hrw]
  · intro rem i str a h0 hrw hz hsep
    rw [parse_loop_succ, if_neg h0, if_pos hrw, if_neg hz, if_neg hsep]
  · unfold bench_server.main
    simp only
    constructor
    · intro h
      rw [if_pos h]
    · intro h
      by_contra hn
      rw [if_neg hn] at h
      exact bench_server.startup.noConfusion h

theorem parse_ops_rejects_witness :
    ¬ in_grammar ("2x5").toList ∧
    parse_loop (127 + 1) 0 ("2x5").toList eops_init = (-1, eops_init) ∧
    parse_loop (127 + 1) 0 ("2r5x").toList eops_init = (-2, eops_init) :=
  ⟨(parse_ops_rejects ("2x5").toList eops_init 128).2.1 (by decide),
   (parse_ops_rejects ("2x5").toList eops_init 128).2.2.1 127 0 ("2x5").toList eops_init
     (by decide) (by decide),
   (parse_ops_rejects ("2x5").toList eops_init 128).2.2.2.1 127 0 ("2r5x").toList eops_init
     (by decide) (by decide) (by decide) (by decide)⟩

/-! ## The bench TCP server: one connection -/

theorem strtoul_lt (s : List Char) : (strtoul s).1 < SIZE_MOD := by
  have hM : SIZE_MOD = 18446744073709551616 := by decide
  have hU : ULONG_MAX = 18446744073709551615 := by decide
  have hpos : 0 < SIZE_MOD := by rw [hM]; decide
  unfold strtoul
  dsimp only
  split_ifs
  all_goals first
    | exact hpos
    | (show ULONG_MAX < SIZE_MOD; rw [hU, hM]; decide)
    | exact Nat.mod_lt _ hpos
    | (simp only [hU, hM] at *; omega)

theorem parse_loop_bounded :
    ∀ (rem i : Nat) (str : List Char) (ops : Nat → extracted_op),
      (∀ j, (ops j).n < SIZE_MOD) → ∀ j, ((parse_loop rem i str ops).2 j).n < SIZE_MOD := by
  intro rem
  induction rem with
  | zero => intro i str ops h j; exact h j
  | succ r ih =>
    intro i str ops h j
    have hupd : ∀ (e : extracted_op), e.n < SIZE_MOD →
        ∀ j, ((Function.update ops i e) j).n < SIZE_MOD := by
      intro e he j
      by_cases hj : j = i
      · rw [hj, Function.update_same]; exact he
      · rw [Function.update_noteq hj]; exact h j
    rw [parse_loop_succ]
    split
    · exact h j
    · split
      · split
        · exact ih _ _ _ (hupd _ (strtoul_lt _)) j
        · split
          · exact ih _ _ _ (hupd _ (strtoul_lt _)) j
          · exact h j
      · exact h j

theorem bench_config_wait_fields (eops : Nat → extracted_op) (d : bench_server.conn_data) :
    (bench_server.config_wait eops d).1.n = d.n ∧
    (bench_server.config_wait eops d).1.step = d.step ∧
    (bench_server.config_wait eops d).1.last_epoll =
      (if (eops d.step).is_write then EPOLLIN else EPOLLOUT) := by
  unfold bench_server.config_wait
  dsimp only
  by_cases h : d.last_epoll = (if (eops d.step).is_write then EPOLLIN else EPOLLOUT)
  · rw [if_pos h]; exact ⟨rfl, rfl, h⟩
  · rw [if_neg h]; exact ⟨rfl, rfl, rfl⟩

theorem bench_readwrite_done {eops : Nat → extracted_op} {L events : Nat} {io : Int}
    {d d2 : bench_server.conn_data}
    (h : bench_server.readwrite eops L events io d = .done d2) :
    d2 = (bench_server.config_wait eops (bench_server.advance_step eops L d)).1 := by
  have hc : ∀ r, bench_server.complete_io eops L r d = .done d2 →
      d2 = (bench_server.config_wait eops (bench_server.advance_step eops L d)).1 := by
    intro r hr
    unfold bench_server.complete_io at hr
    split at hr
    · exact bench_server.rw_result.noConfusion hr
    · exact (bench_server.rw_result.done.inj hr).symm
  unfold bench_server.readwrite at h
  split at h
  · exact bench_server.rw_result.noConfusion h
  · split at h
    · exact bench_server.rw_result.noConfusion h
    · split at h
      · split at h
        · exact bench_server.rw_result.noConfusion h
        · exact hc _ h
      · split at h
        · split at h
          · exact hc _ h
          · exact bench_server.rw_result.noConfusion h
        · exact hc _ h

/-- Effect of `advance_step` below the repeat count and on reaching it. -/
theorem bench_advance_step_cases (eops : Nat → extracted_op) (L : Nat)
    (d : bench_server.conn_data) (hn : d.n < (eops d.step).n)
    (hr : (eops d.step).n < SIZE_MOD) (hs : d.step + 1 < SIZE_MOD) :
    (d.n + 1 < (eops d.step).n →
      (bench_server.advance_step eops L d).n = d.n + 1 ∧
      (bench_server.advance_step eops L d).step = d.step) ∧
    (d.n + 1 = (eops d.step).n →
      (bench_server.advance_step eops L d).n = 0 ∧
      (bench_server.advance_step eops L d).step = (d.step + 1) % L) ∧
    (bench_server.advance_step eops L d).last_epoll = d.last_epoll := by
  have hmod : (d.n + 1) % SIZE_MOD = d.n + 1 := Nat.mod_eq_of_lt (by omega)
  unfold bench_server.advance_step
  simp only [hmod, Nat.mod_eq_of_lt hs]
  refine ⟨?_, ?_, ?_⟩
  · intro h
    rw [if_neg (by omega)]
    exact ⟨rfl, rfl⟩
  · intro h
    rw [if_pos h]
    exact ⟨rfl, rfl⟩
  · split <;> rfl

theorem parsed_bounds (input : List Char) (L : Nat)
    (hL : (parse_ops input eops_init 128).1 = (L : Int)) :
    L ≤ 128 ∧ ∀ j, ((parse_ops input eops_init 128).2 j).n < SIZE_MOD := by
  constructor
  · have h := parse_loop_range 128 0 input eops_init
    unfold parse_ops at hL
    rw [hL] at h
    rcases h with h | h | ⟨_, h2⟩
    · omega
    · omega
    · simp only [Nat.zero_add] at h2
      omega
  · intro j
    exact parse_loop_bounded 128 0 input eops_init
      (fun _ => by show 0 < SIZE_MOD; decide) j

theorem bench_reaches_repeat (eops : Nat → extracted_op) (L s : Nat)
    (hs : s + 1 < SIZE_MOD) (hn : 1 ≤ (eops s).n) (hr : (eops s).n < SIZE_MOD) :
    bench_server.repeats_then_advances eops L s := by
  intro d d2 k hstep hn0 hreach
  induction hreach with
  | start d0 =>
    refine ⟨fun _ => ⟨hstep, hn0⟩, fun h => ?_⟩
    omega
  | next events io h1 h2 ih =>
    rename_i k0 d0 d1 d3
    have ih0 := ih hstep hn0
    have hd := bench_readwrite_done h2
    have hcw := bench_config_wait_fields eops (bench_server.advance_step eops L d1)
    constructor
    · intro hk
      obtain ⟨hs1, hn1⟩ := ih0.1 (by omega)
      have hadv := bench_advance_step_cases eops L d1 (by rw [hs1, hn1]; omega)
        (by rw [hs1]; exact hr) (by rw [hs1]; exact hs)
      obtain ⟨ha, hb⟩ := hadv.1 (by rw [hs1, hn1]; omega)
      rw [hd, hcw.1, hcw.2.1, ha, hb, hs1, hn1]
      exact ⟨rfl, rfl⟩
    · intro hk
      obtain ⟨hs1, hn1⟩ := ih0.1 (by omega)
      have hadv := bench_advance_step_cases eops L d1 (by rw [hs1, hn1]; omega)
        (by rw [hs1]; exact hr) (by rw [hs1]; exact hs)
      obtain ⟨ha, hb⟩ := hadv.2.1 (by rw [hs1, hn1]; omega)
      rw [hd, hcw.1, hcw.2.1, ha, hb, hs1]
      exact ⟨rfl, rfl⟩

/-- C13 (as stated, refuted). `0r5-1w3` parses to two steps, the first with repeat count 0.
From `(step = 0, n = 0)` the cursor is not at step 1 after 0 operations, and successful
operations only count `n` up to 1, 2, ... while the cursor stays at step 0. -/
theorem bench_zero_repeat_stuck :
    (parse_ops zero_repeat_text eops_init 128).1 = 2 ∧
    ((parse_ops zero_repeat_text eops_init 128).2 0).n = 0 ∧
    ¬ bench_server.repeats_then_advances (parse_ops zero_repeat_text eops_init 128).2 2 0 ∧
    bench_server.readwrite (parse_ops zero_repeat_text eops_init 128).2 2 EPOLLOUT 5
      ⟨0, 0, EPOLLOUT, 3⟩ = .done ⟨1, 0, EPOLLOUT, 3⟩ ∧
    bench_server.readwrite (parse_ops zero_repeat_text eops_init 128).2 2 EPOLLOUT 5
      ⟨1, 0, EPOLLOUT, 3⟩ = .done ⟨2, 0, EPOLLOUT, 3⟩ := by
  refine ⟨by decide, by decide, ?_, by decide, by decide⟩
  intro h
  have h0 := (h ⟨0, 0, EPOLLOUT, 3⟩ ⟨0, 0, EPOLLOUT, 3⟩ 0 rfl rfl
    (bench_server.reaches.start _)).2 (by decide)
  exact absurd h0.1 (by decide)

/-- C13 (amended). In the bench TCP server, for every parsed sequence of length `L` and
every step `s < L` whose repeat count `n` is at least 1, starting from the connection state
`(step = s, n = 0)` the connection is still at step `s` with counter `k` after `k < n`
successful operations, and after exactly `n` of them the cursor is at `(s + 1) mod L` with
the repeat counter reset to 0. -/
theorem bench_repeats (input : List Char) (L s : Nat)
    (hL : (parse_ops input eops_init 128).1 = (L : Int))
    (hs : s < L)
    (hn : 1 ≤ ((parse_ops input eops_init 128).2 s).n) :
    bench_server.repeats_then_advances (parse_ops input eops_init 128).2 L s := by
  obtain ⟨hL128, hb⟩ := parsed_bounds input L hL
  have hM : SIZE_MOD = 18446744073709551616 := by decide
  exact bench_reaches_repeat _ L s (by rw [hM]; omega) hn (hb s)

theorem bench_repeats_witness :
    bench_server.repeats_then_advances (parse_ops two_step_text eops_init 128).2 2 0 :=
  bench_repeats two_step_text 2 0 (by decide) (by decide) (by decide)

/-! ## The connection invariant of the bench server -/

theorem land_in_out (events : Nat) :
    (events &&& (EPOLLIN ||| EPOLLOUT) = EPOLLIN →
      events &&& EPOLLOUT = 0 ∧ events &&& EPOLLIN ≠ 0) ∧
    (events &&& (EPOLLIN ||| EPOLLOUT) = EPOLLOUT →
      events &&& EPOLLOUT ≠ 0) := by
  have h5 : EPOLLIN ||| EPOLLOUT = 5 := by decide
  have hI : EPOLLIN = 1 := rfl
  have hO : EPOLLOUT = 4 := rfl
  rw [h5, hI, hO]
  constructor
  · intro h
    have h4 : events &&& 4 = 0 := by
      have : events &&& 5 &&& 4 = 1 &&& 4 := by rw [h]
      rw [Nat.land_assoc] at this
      exact this
    have h1 : events &&& 1 = 1 := by
      have : events &&& 5 &&& 1 = 1 &&& 1 := by rw [h]
      rw [Nat.land_assoc] at this
      exact this
    exact ⟨h4, by rw [h1]; decide⟩
  · intro h
    have h4 : events &&& 4 = 4 := by
      have : events &&& 5 &&& 4 = 4 &&& 4 := by rw [h]
      rw [Nat.land_assoc] at this
      exact this
    rw [h4]; decide

theorem bench_complete_io_ne_assert (eops : Nat → extracted_op) (L : Nat) (r : Int)
    (d : bench_server.conn_data) (line : Nat) :
    bench_server.complete_io eops L r d ≠ .assert_failed line := by
  unfold bench_server.complete_io
  split <;> exact fun h => bench_server.rw_result.noConfusion h

/-- With the subscription the invariant prescribes, an event that matches it never trips a
direction assertion. -/
theorem bench_direction_asserts (eops : Nat → extracted_op) (L events : Nat) (io : Int)
    (d : bench_server.conn_data)
    (hsub : d.last_epoll = (if (eops d.step).is_write then EPOLLIN else EPOLLOUT))
    (hev : events &&& (EPOLLIN ||| EPOLLOUT) = d.last_epoll) :
    bench_server.readwrite eops L events io d ≠ .assert_failed 144 ∧
    bench_server.readwrite eops L events io d ≠ .assert_failed 147 := by
  have hres : bench_server.readwrite eops L events io d = .unregistered ∨
      bench_server.readwrite eops L events io d = .assert_failed 142 ∨
      bench_server.readwrite eops L events io d = bench_server.complete_io eops L io d := by
    unfold bench_server.readwrite
    by_cases hup : events &&& (EPOLLHUP ||| EPOLLERR) ≠ 0
    · rw [if_pos hup]; exact Or.inl rfl
    · rw [if_neg hup]
      by_cases hsz : ¬ ((eops d.step).sz < BUF_SIZE)
      · rw [if_pos hsz]; exact Or.inr (Or.inl rfl)
      · rw [if_neg hsz]
        right; right
        cases hw : (eops d.step).is_write with
        | true =>
          rw [hw] at hsub
          simp only [if_true] at hsub
          rw [hsub] at hev
          obtain ⟨hout, hin⟩ := (land_in_out events).1 hev
          rw [if_neg (by rw [hout]; exact fun h => h rfl), if_pos hin]
          simp
        | false =>
          rw [hw] at hsub
          simp only [Bool.false_eq_true, if_false] at hsub
          rw [hsub] at hev
          have hout := (land_in_out events).2 hev
          rw [if_pos hout]
          simp
  have hc := bench_complete_io_ne_assert eops L io d
  constructor
  · rcases hres with h | h | h <;> rw [h]
    · exact fun h => bench_server.rw_result.noConfusion h
    · decide
    · exact hc 144
  · rcases hres with h | h | h <;> rw [h]
    · exact fun h => bench_server.rw_result.noConfusion h
    · decide
    · exact hc 147

theorem bench_inv_step (eops : Nat → extracted_op) (L : Nat)
    (hL : 1 ≤ L) (hL2 : L < SIZE_MOD)
    (hn : ∀ s, s < L → 1 ≤ (eops s).n ∧ (eops s).n < SIZE_MOD)
    (d : bench_server.conn_data) (hinv : bench_server.conn_inv eops L d) :
    bench_server.conn_inv eops L
      (bench_server.config_wait eops (bench_server.advance_step eops L d)).1 := by
  obtain ⟨hs, hlt, _⟩ := hinv
  have hcw := bench_config_wait_fields eops (bench_server.advance_step eops L d)
  have hadv := bench_advance_step_cases eops L d hlt (hn d.step hs).2 (by omega)
  unfold bench_server.conn_inv
  rw [hcw.1, hcw.2.1, hcw.2.2]
  by_cases hcase : d.n + 1 = (eops d.step).n
  · obtain ⟨ha, hb⟩ := hadv.2.1 hcase
    rw [ha, hb]
    have hmod : (d.step + 1) % L < L := Nat.mod_lt _ (by omega)
    exact ⟨hmod, by have := (hn _ hmod).1; omega, rfl⟩
  · obtain ⟨ha, hb⟩ := hadv.1 (by omega)
    rw [ha, hb]
    exact ⟨hs, by omega, rfl⟩

theorem bench_reaches_inv (eops : Nat → extracted_op) (L : Nat)
    (hL : 1 ≤ L) (hL2 : L < SIZE_MOD)
    (hn : ∀ s, s < L → 1 ≤ (eops s).n ∧ (eops s).n < SIZE_MOD)
    (d d2 : bench_server.conn_data) (k : Nat)
    (hinv : bench_server.conn_inv eops L d)
    (hreach : bench_server.reaches eops L k d d2) :
    bench_server.conn_inv eops L d2 := by
  induction hreach with
  | start d0 => exact hinv
  | next events io h1 h2 ih =>
    rw [bench_readwrite_done h2]
    exact bench_inv_step eops L hL hL2 hn _ (ih hinv)

/-- C15. In the bench TCP server, for every parsed sequence of length `L ≥ 1` whose steps
all have repeat count at least 1, every connection state reached from the state created on
accept through successful `readwrite` calls satisfies `step < L`, `n < eops[step].n`, and
`last_epoll` is `EPOLLIN` if `eops[step].is_write` and `EPOLLOUT` otherwise; hence for any
event matching the current subscription neither direction assertion of `readwrite` (lines
144 and 147) fails. -/
theorem bench_conn_invariant (input : List Char) (L cfd k : Nat)
    (d : bench_server.conn_data)
    (hL : (parse_ops input eops_init 128).1 = (L : Int))
    (hL1 : 1 ≤ L)
    (hn : ∀ s, s < L → 1 ≤ ((parse_ops input eops_init 128).2 s).n)
    (hreach : bench_server.reaches (parse_ops input eops_init 128).2 L k
      (bench_server.accept (parse_ops input eops_init 128).2 cfd) d) :
    d.step < L ∧
    d.n < ((parse_ops input eops_init 128).2 d.step).n ∧
    d.last_epoll =
      (if ((parse_ops input eops_init 128).2 d.step).is_write then EPOLLIN else EPOLLOUT) ∧
    ∀ (events : Nat) (io : Int), events &&& (EPOLLIN ||| EPOLLOUT) = d.last_epoll →
      bench_server.readwrite (parse_ops input eops_init 128).2 L events io d ≠
        .assert_failed 144 ∧
      bench_server.readwrite (parse_ops input eops_init 128).2 L events io d ≠
        .assert_failed 147 := by
  obtain ⟨hL128, hb⟩ := parsed_bounds input L hL
  have hM : SIZE_MOD = 18446744073709551616 := by decide
  have hinit : bench_server.conn_inv (parse_ops input eops_init 128).2 L
      (bench_server.accept (parse_ops input eops_init 128).2 cfd) :=
    ⟨hL1, hn 0 hL1, rfl⟩
  have hinv := bench_reaches_inv _ L hL1 (by rw [hM]; omega)
    (fun s hs => ⟨hn s hs, hb s⟩) _ d k hinit hreach
  exact ⟨hinv.1, hinv.2.1, hinv.2.2,
    fun events io hev => bench_direction_asserts _ L events io d hinv.2.2 hev⟩

theorem two_step_repeat (s : Nat) (hs : s < 2) :
    1 ≤ ((parse_ops two_step_text eops_init 128).2 s).n := by
  have h : s = 0 ∨ s = 1 := by omega
  rcases h with h | h <;> subst h <;> decide

theorem bench_conn_invariant_witness :
    (⟨1, 0, EPOLLOUT, 3⟩ : bench_server.conn_data).step < 2 ∧
    (⟨1, 0, EPOLLOUT, 3⟩ : bench_server.conn_data).n <
      ((parse_ops two_step_text eops_init 128).2 0).n :=
  have h := bench_conn_invariant two_step_text 2 3 1 ⟨1, 0, EPOLLOUT, 3⟩ (by decide)
    (by decide) two_step_repeat
    (bench_server.reaches.next EPOLLOUT 5 (bench_server.reaches.start _) (by decide))
  ⟨h.1, h.2.1⟩

/-! ## Complementary subscriptions -/

theorem find_slot_after {σ : Type} (R : random_t σ) (hR : draws_in_range R) (i : Nat)
    (hi : i ≠ UINT32_MAX) :
    ∀ (fuel : Nat) (st st1 : state σ), find_slot R i fuel st = .ok st1 →
      after_placements st st1 1 := by
  intro fuel
  induction fuel with
  | zero => intro st st1 h; exact outcome.noConfusion h
  | succ n ih =>
    intro st st1 h
    unfold find_slot at h
    simp only at h
    rw [if_pos (hR st.rng)] at h
    split at h
    · rename_i hread
      have hst1 := outcome.ok.inj h
      have hlen : (R.random_next_int st.rng 0 (DISTRIBUTION_BOUND - 1)).1 <
          st.g_ops.slots.length := by rw [st.g_ops.size_eq]; exact hR st.rng
      have hc := count_set_sentinel st.g_ops.slots _ i hlen hread hi
      rw [← hst1]
      refine ⟨?_, ?_⟩
      · show (st.g_ops.slots.set _ i).count UINT32_MAX + 1 = _
        exact hc.1
      · show (st.trace ++ [event.ops_write _ i]).length = st.trace.length + 1
        rw [List.length_append]; rfl
    · have := ih _ st1 h
      exact this

theorem after_trans {σ : Type} {a b c : state σ} {m k : Nat}
    (h1 : after_placements a b m) (h2 : after_placements b c k) :
    after_placements a c (m + k) := by
  obtain ⟨c1, t1⟩ := h1
  obtain ⟨c2, t2⟩ := h2
  exact ⟨by omega, by omega⟩

theorem fill_op_after {σ : Type} (R : random_t σ) (hR : draws_in_range R) (fuel i : Nat)
    (hi : i ≠ UINT32_MAX) :
    ∀ (n : Nat) (st st1 : state σ), fill_op R fuel i n st = .ok st1 →
      after_placements st st1 n ∧ (fill_op_starts R fuel i n st).length = n := by
  intro n
  induction n with
  | zero =>
    intro st st1 h
    have := outcome.ok.inj h
    rw [← this]
    exact ⟨⟨rfl, rfl⟩, rfl⟩
  | succ n ih =>
    intro st st1 h
    unfold fill_op at h
    cases hf : find_slot R i fuel st with
    | ok st2 =>
      rw [hf] at h
      have h1 := find_slot_after R hR i hi fuel st st2 hf
      obtain ⟨h2, hlen⟩ := ih st2 st1 h
      refine ⟨by have := after_trans h1 h2; rwa [Nat.add_comm] at this, ?_⟩
      unfold fill_op_starts
      rw [hf]
      simp only [List.length_cons, hlen]
    | out_of_fuel => rw [hf] at h; exact outcome.noConfusion h
    | assert_failed l s => rw [hf] at h; exact outcome.noConfusion h
    | out_of_bounds s => rw [hf] at h; exact outcome.noConfusion h

theorem fill_op_starts_inv {σ : Type} (R : random_t σ) (hR : draws_in_range R) (fuel i : Nat)
    (hi : i ≠ UINT32_MAX) :
    ∀ (n : Nat) (st : state σ) (m : Nat) (s : state σ),
      (fill_op_starts R fuel i n st)[m]? = some s → m < n ∧ after_placements st s m := by
  intro n
  induction n with
  | zero => intro st m s h; simp [fill_op_starts] at h
  | succ n ih =>
    intro st m s h
    unfold fill_op_starts at h
    cases m with
    | zero =>
      simp only [List.getElem?_cons_zero, Option.some.injEq] at h
      rw [← h]
      exact ⟨by omega, ⟨rfl, rfl⟩⟩
    | succ m1 =>
      simp only [List.getElem?_cons_succ] at h
      cases hf : find_slot R i fuel st with
      | ok st2 =>
        rw [hf] at h
        obtain ⟨hlt, h2⟩ := ih st2 m1 s h
        have h1 := find_slot_after R hR i hi fuel st st2 hf
        refine ⟨by omega, ?_⟩
        have := after_trans h1 h2
        rwa [Nat.add_comm] at this
      | out_of_fuel => rw [hf] at h; simp at h
      | assert_failed l s0 => rw [hf] at h; simp at h
      | out_of_bounds s0 => rw [hf] at h; simp at h

theorem fill_ops_starts_inv {σ : Type} (R : random_t σ) (hR : draws_in_range R) (fuel : Nat) :
    ∀ (ws : List Nat) (i : Nat) (st : state σ), i + ws.length ≤ UINT32_MAX →
      ∀ (m : Nat) (s : state σ), (fill_ops_starts R fuel i ws st)[m]? = some s →
        m < ws.sum ∧ after_placements st s m := by
  intro ws
  induction ws with
  | nil => intro i st _ m s h; simp [fill_ops_starts] at h
  | cons w ws ih =>
    intro i st hlen m s h
    simp only [List.length_cons] at hlen
    have hi : i ≠ UINT32_MAX := by omega
    unfold fill_ops_starts at h
    by_cases hm : m < (fill_op_starts R fuel i w st).length
    · rw [List.getElem?_append_left hm] at h
      obtain ⟨h1, h2⟩ := fill_op_starts_inv R hR fuel i hi w st m s h
      exact ⟨by rw [List.sum_cons]; omega, h2⟩
    · rw [List.getElem?_append_right (by omega)] at h
      cases hf : fill_op R fuel i w st with
      | ok st2 =>
        rw [hf] at h
        obtain ⟨ha, hl⟩ := fill_op_after R hR fuel i hi w st st2 hf
        rw [hl] at h hm
        obtain ⟨h1, h2⟩ := ih (i + 1) st2 (by omega) (m - w) s h
        refine ⟨by rw [List.sum_cons]; omega, ?_⟩
        have := after_trans ha h2
        rwa [show w + (m - w) = m by omega] at this
      | out_of_fuel => rw [hf] at h; simp at h
      | assert_failed l s0 => rw [hf] at h; simp at h
      | out_of_bounds s0 => rw [hf] at h; simp at h

theorem clear_ops_trace {σ : Type} :
    ∀ (n i : Nat) (st : state σ), (clear_ops n i st).trace.length = st.trace.length + n := by
  intro n
  induction n with
  | zero => intro i st; rfl
  | succ n ih =>
    intro i st
    show (clear_ops n (i + 1) (st.set_op i UINT32_MAX)).trace.length = _
    rw [ih]
    show (st.trace ++ [event.ops_write i UINT32_MAX]).length + n = _
    rw [List.length_append]
    simp only [List.length_singleton]
    omega

/-- A draw that hits a slot holding the sentinel ends the search at once. -/
theorem find_slot_hit {σ : Type} (R : random_t σ) (i fuel : Nat) (s : state σ)
    (hpos : (R.random_next_int s.rng 0 (DISTRIBUTION_BOUND - 1)).1 < DISTRIBUTION_BOUND)
    (hempty : s.g_ops.read (R.random_next_int s.rng 0 (DISTRIBUTION_BOUND - 1)).1 =
      UINT32_MAX) :
    find_slot R i (fuel + 1) s =
      .ok (({ s with rng := (R.random_next_int s.rng 0 (DISTRIBUTION_BOUND - 1)).2 } :
        state σ).set_op (R.random_next_int s.rng 0 (DISTRIBUTION_BOUND - 1)).1 i) := by
  unfold find_slot
  simp only
  rw [if_pos hpos]
  exact if_pos hempty

/-- C14. During the fill of `bm_phase_warmup` with weights summing to 1024 (operation ids
below the sentinel, draws in range), the `m`-th start of the rejection loop (counting from
0, so after `m` placements: the trace holds the seeding, the 1024 clearing writes and `m`
placement writes) finds exactly `1024 - m` slots holding the sentinel, and that number is
at least 1; a draw hitting such a slot ends the search. -/
theorem search_starts_on_free_slot {σ : Type} (R : random_t σ) (fuel : Nat) (st : state σ)
    (m : Nat) (s : state σ)
    (hsum : st.g_params.op_dist.sum = DISTRIBUTION_BOUND)
    (hK : st.g_params.op_dist_len ≤ UINT32_MAX)
    (hR : draws_in_range R)
    (hs : (warmup_starts R fuel st)[m]? = some s) :
    m < DISTRIBUTION_BOUND ∧
    s.trace.length = st.trace.length + 1 + DISTRIBUTION_BOUND + m ∧
    s.g_ops.slots.count UINT32_MAX = DISTRIBUTION_BOUND - m ∧
    1 ≤ s.g_ops.slots.count UINT32_MAX ∧
    (∀ i f, s.g_ops.read (R.random_next_int s.rng 0 (DISTRIBUTION_BOUND - 1)).1 = UINT32_MAX →
      ∃ s1, find_slot R i (f + 1) s = .ok s1) := by
  unfold warmup_starts at hs
  simp only at hs
  rw [if_pos (weights_total_of_sum hsum)] at hs
  obtain ⟨hm, hc, ht⟩ := fill_ops_starts_inv R hR fuel st.g_params.op_dist 0 _
    (by unfold bm_params_t.op_dist_len at hK; omega) m s hs
  rw [hsum] at hm
  rw [clear_ops_all, List.count_replicate_self] at hc
  rw [clear_ops_trace] at ht
  have ht2 : s.trace.length = (st.trace ++ [event.seed 0]).length + DISTRIBUTION_BOUND + m := ht
  rw [List.length_append] at ht2
  simp only [List.length_singleton] at ht2
  refine ⟨hm, ht2, by omega, by omega, ?_⟩
  intro i f hempty
  exact ⟨_, find_slot_hit R i f s (hR s.rng) hempty⟩

/-- A warmup that returns has entered the rejection loop exactly 1024 times. -/
theorem fill_ops_starts_length {σ : Type} (R : random_t σ) (hR : draws_in_range R)
    (fuel : Nat) :
    ∀ (ws : List Nat) (i : Nat) (st st1 : state σ), i + ws.length ≤ UINT32_MAX →
      fill_ops R fuel i ws st = .ok st1 →
      (fill_ops_starts R fuel i ws st).length = ws.sum := by
  intro ws
  induction ws with
  | nil => intro i st st1 _ _; rfl
  | cons w ws ih =>
    intro i st st1 hlen h
    simp only [List.length_cons] at hlen
    unfold fill_ops at h
    unfold fill_ops_starts
    cases hf : fill_op R fuel i w st with
    | ok st2 =>
      rw [hf] at h
      have hl := (fill_op_after R hR fuel i (by omega) w st st2 hf).2
      rw [List.length_append, hl, ih (i + 1) st2 st1 (by omega) h, List.sum_cons]
    | out_of_fuel => rw [hf] at h; exact outcome.noConfusion h
    | assert_failed l s => rw [hf] at h; exact outcome.noConfusion h
    | out_of_bounds s => rw [hf] at h; exact outcome.noConfusion h

theorem fill_ops_starts_head {σ : Type} (R : random_t σ) (fuel i v : Nat) (ws : List Nat)
    (st : state σ) : (fill_ops_starts R fuel i ((v + 1) :: ws) st)[0]? = some st := by
  rw [fill_ops_starts, fill_op_starts]
  simp only [List.cons_append, List.getElem?_cons_zero]

theorem search_starts_on_free_slot_witness :
    (clear_ops DISTRIBUTION_BOUND 0
      ({ initial_state params_D (7 : Nat) with
          rng := counter_rng.random_init_seed 0,
          trace := (initial_state params_D (7 : Nat)).trace ++ [event.seed 0] } :
        state Nat)).g_ops.slots.count UINT32_MAX = DISTRIBUTION_BOUND - 0 :=
  (search_starts_on_free_slot counter_rng 1 (initial_state params_D 7) 0 _ params_D_sum
    (by decide) counter_draws_in_range
    (by
      have hw : weights_total (initial_state params_D (7 : Nat)).g_params.op_dist =
          DISTRIBUTION_BOUND := weights_total_of_sum params_D_sum
      unfold warmup_starts
      simp only
      rw [if_pos hw]
      exact fill_ops_starts_head counter_rng 1 0 1022 [1] _)).2.2.1

end CSB
